import Mathlib

/-!
Shallow embedding of the `mongoose-history-user` plugin
(`src/lib/mongoose-history.js` and the history-model module) for checking
its natural-language specification.

JavaScript values manipulated by the plugin are modelled by the inductive
type `Value` below; mongoose documents and plain objects are association
lists of string keys (insertion-ordered, as in JS).  JSON arrays are not
modelled, as no verified property depends on them.
-/

/-- A JavaScript value as manipulated by the plugin: `null`, `undefined`,
booleans, (natural) numbers, strings, `Date` objects (by epoch time) and
plain objects as insertion-ordered association lists. -/
inductive Value where
  | vNull : Value
  | vUndef : Value
  | vBool : Bool → Value
  | vNum : Nat → Value
  | vStr : String → Value
  | vDate : Nat → Value
  | vObj : List (String × Value) → Value

open Value

/-- A JavaScript plain object: ordered association list of fields. -/
abbrev JsObj := List (String × Value)

/-- JavaScript truthiness of a value (`if (v)`): `null`, `undefined`,
`false`, `0` and the empty string are falsy, everything else truthy. -/
def truthy : Value → Bool
  | vNull => false
  | vUndef => false
  | vBool b => b
  | vNum n => n ≠ 0
  | vStr s => s ≠ ""
  | vDate _ => true
  | vObj _ => true

/-- `typeof v` in JavaScript (note `typeof null = "object"` and
`typeof (new Date()) = "object"`). -/
def jsTypeof : Value → String
  | vNull => "object"
  | vUndef => "undefined"
  | vBool _ => "boolean"
  | vNum _ => "number"
  | vStr _ => "string"
  | vDate _ => "object"
  | vObj _ => "object"

/-- Property read on an object (`fields[k]`): `undefined` when absent. -/
def getF : JsObj → String → Value
  | [], _ => vUndef
  | (k, v) :: rest, key => if k = key then v else getF rest key

/-- Property write on an object (`fields[k] = v`): replaces in place if the
key exists (JS keeps the original insertion position), appends otherwise. -/
def setF : JsObj → String → Value → JsObj
  | [], key, v => [(key, v)]
  | (k, w) :: rest, key, v =>
      if k = key then (k, v) :: rest else (k, w) :: setF rest key v

/-- Whether an object has a given key (`k in obj`). -/
def hasF : JsObj → String → Bool
  | [], _ => false
  | (k, _) :: rest, key => k = key || hasF rest key

/-- The keys of an object, in insertion order (`for (let k in obj)`). -/
def keysOf (o : JsObj) : List String := o.map Prod.fst

mutual

/-- Structural value equality, modelling JavaScript strict equality `===`
at the places the plugin uses it (all of which compare at most one
object-like operand, where `===` agrees with value equality). -/
def beqV : Value → Value → Bool
  | vNull, vNull => true
  | vUndef, vUndef => true
  | vBool a, vBool b => a == b
  | vNum a, vNum b => a == b
  | vStr a, vStr b => a == b
  | vDate a, vDate b => a == b
  | vObj a, vObj b => beqFields a b
  | _, _ => false

/-- Field-list equality used by `beqV` on objects. -/
def beqFields : List (String × Value) → List (String × Value) → Bool
  | [], [] => true
  | (k1, v1) :: r1, (k2, v2) :: r2 => k1 == k2 && beqV v1 v2 && beqFields r1 r2
  | _, _ => false

end

-- Characters that are significant for `JSON.stringify` / `JSON.parse` and
-- for the sanitizer's replacement patterns.
def qC : Char := Char.ofNat 34
def bsC : Char := Char.ofNat 92
def apC : Char := Char.ofNat 39
def dolC : Char := Char.ofNat 36
def lbC : Char := Char.ofNat 123
def rbC : Char := Char.ofNat 125
def colC : Char := ':'
def comC : Char := ','

def digitChar (n : Nat) : Char := Char.ofNat (48 + n)

/-- Decimal digits of a natural number, most significant first; the fuel
argument (any bound on the digit count, structurally decreasing) keeps
the recursion structural so that terms reduce definitionally. -/
def natToCharsAux : Nat → Nat → List Char → List Char
  | 0, n, acc => digitChar n :: acc
  | fuel + 1, n, acc =>
    if n < 10 then digitChar n :: acc
    else natToCharsAux fuel (n / 10) (digitChar (n % 10) :: acc)

def natToChars (n : Nat) : List Char := natToCharsAux n n []

/-- JSON string escaping of one character (the serializer escapes the
double quote and the backslash; control characters are outside the
modelled string alphabet). -/
def escChar (c : Char) : List Char :=
  if c = qC || c = bsC then [bsC, c] else [c]

def escChars (cs : List Char) : List Char := cs.flatMap escChar

/-- The quoted timestamp string `JSON.stringify` produces for a `Date`
(the exact ISO layout is abstracted; what matters is that it is a plain
string of letters, digits and a dash). -/
def dateChars (t : Nat) : List Char := 'D' :: 'a' :: 't' :: 'e' :: '-' :: natToChars t

/-- Comma-separated join of serialized object members. -/
def joinComma : List (List Char) → List Char
  | [] => []
  | [e] => e
  | e :: rest => e ++ comC :: joinComma rest

mutual

/-- `JSON.stringify`: `none` models the `undefined` result (for an
`undefined` argument); object members with `undefined` values are
skipped, `Date`s serialize as quoted timestamp strings. -/
def stringifyVal : Value → Option (List Char)
  | vNull => some ['n', 'u', 'l', 'l']
  | vUndef => none
  | vBool true => some ['t', 'r', 'u', 'e']
  | vBool false => some ['f', 'a', 'l', 's', 'e']
  | vNum n => some (natToChars n)
  | vStr s => some (qC :: (escChars s.data ++ [qC]))
  | vDate t => some (qC :: (dateChars t ++ [qC]))
  | vObj fs => some (lbC :: (joinComma (stringifyEntries fs) ++ [rbC]))

/-- Serialized `"key":value` members of an object, skipping members whose
value serializes to nothing (`undefined`). -/
def stringifyEntries : List (String × Value) → List (List Char)
  | [] => []
  | (k, v) :: rest =>
    match stringifyVal v with
    | none => stringifyEntries rest
    | some sv => (qC :: (escChars k.data ++ [qC, colC] ++ sv)) :: stringifyEntries rest

end

/-- `String.prototype.replace` with a plain-string pattern: replaces only
the first occurrence, scanning from the left; returns the input unchanged
when the pattern does not occur. -/
def replaceFirst (s pat rep : List Char) : List Char :=
  match s with
  | [] => []
  | c :: rest =>
    if pat.isPrefixOf (c :: rest) then rep ++ (c :: rest).drop pat.length
    else c :: replaceFirst rest pat rep

def isDigitC (c : Char) : Bool := 48 ≤ c.toNat && c.toNat ≤ 57

/-- Body of a JSON string literal: reads up to the closing quote,
interpreting a backslash as escaping the following character (the only
escapes the modelled serializer emits).  The boolean argument records a
pending backslash: the next character is then taken literally. -/
def parseStrCharsAux : Bool → List Char → Option (List Char × List Char)
  | _, [] => none
  | esc, c :: rest =>
    if esc then (parseStrCharsAux false rest).map (fun p => (c :: p.1, p.2))
    else if c = qC then some ([], rest)
    else if c = bsC then parseStrCharsAux true rest
    else (parseStrCharsAux false rest).map (fun p => (c :: p.1, p.2))

def parseStrChars (cs : List Char) : Option (List Char × List Char) :=
  parseStrCharsAux false cs

/-- Longest leading run of decimal digits. -/
def takeDigits : List Char → (List Char × List Char)
  | [] => ([], [])
  | c :: rest =>
    if isDigitC c then
      let p := takeDigits rest
      (c :: p.1, p.2)
    else ([], c :: rest)

def digitsToNat (ds : List Char) : Nat :=
  ds.foldl (fun a c => a * 10 + (c.toNat - 48)) 0

mutual

/-- `JSON.parse` on a value, fuel-indexed (the fuel only bounds nesting
and member count; `parseJson` supplies more than enough).  Duplicate keys
overwrite in place, as JavaScript object construction does. -/
def parseVal : Nat → List Char → Option (Value × List Char)
  | 0, _ => none
  | Nat.succ fuel, cs =>
    match cs with
    | [] => none
    | c :: rest =>
      if c = qC then (parseStrChars rest).map (fun p => (vStr (String.mk p.1), p.2))
      else if c = lbC then
        match rest.head? with
        | none => none
        | some c2 =>
          if c2 = rbC then some (vObj [], rest.tail)
          else (parseMembers fuel [] rest).map (fun p => (vObj p.1, p.2))
      else if isDigitC c then
        let p := takeDigits (c :: rest)
        some (vNum (digitsToNat p.1), p.2)
      else if ['n', 'u', 'l', 'l'].isPrefixOf cs then some (vNull, cs.drop 4)
      else if ['t', 'r', 'u', 'e'].isPrefixOf cs then some (vBool true, cs.drop 4)
      else if ['f', 'a', 'l', 's', 'e'].isPrefixOf cs then some (vBool false, cs.drop 5)
      else none

/-- Members of a JSON object after the opening brace (the empty-object
case is handled by `parseVal`). -/
def parseMembers : Nat → JsObj → List Char → Option (JsObj × List Char)
  | 0, _, _ => none
  | Nat.succ fuel, acc, cs =>
    match cs with
    | [] => none
    | c :: rest =>
      if c = qC then
        match parseStrChars rest with
        | none => none
        | some (kcs, r1) =>
          match r1 with
          | [] => none
          | c2 :: r2 =>
            if c2 = colC then
              match parseVal fuel r2 with
              | none => none
              | some (v, r3) =>
                match r3 with
                | [] => none
                | c3 :: r4 =>
                  if c3 = comC then parseMembers fuel (setF acc (String.mk kcs) v) r4
                  else if c3 = rbC then some (setF acc (String.mk kcs) v, r4)
                  else none
            else none
      else none

end

/-- `JSON.parse` of a full text: the whole input must be consumed
(whitespace never occurs in the serializer's output, so it is not
skipped). -/
def parseJson (cs : List Char) : Option Value :=
  match parseVal (cs.length + 1) cs with
  | some (v, []) => some v
  | _ => none

/-- The character pattern `"$,` i.e. double-quote dollar, and its
replacement, from `sanitizeObj`. -/
def patQD : List Char := [qC, dolC]

def patAD : List Char := [apC, dolC]

/-- Errors a JavaScript execution step can raise: `TypeError` (e.g.
setting a property of `null`/`undefined` in strict mode) and
`SyntaxError` (`JSON.parse` on malformed text). -/
inductive JsErr where
  | typeError : JsErr
  | syntaxError : JsErr
deriving DecidableEq, Repr

/--
`sanitizeObj` from `mongoose-history.js`:

    return JSON.parse(
        JSON.stringify(obj)
            .replace("\"\$", "\"")
            .replace("\'\$", "\'")
    );

`JSON.stringify` on `undefined` yields `undefined`, making the `.replace`
call raise a `TypeError`; a `.replace` outcome that is not valid JSON
makes `JSON.parse` raise a `SyntaxError`.
-/
def sanitizeObj (obj : Value) : Except JsErr Value :=
  match stringifyVal obj with
  | none => Except.error JsErr.typeError
  | some s =>
    match parseJson (replaceFirst (replaceFirst s patQD [qC]) patAD [apC]) with
    | none => Except.error JsErr.syntaxError
    | some v => Except.ok v

/-- Property read `target[key]` on a value known to be used as an object
(`undefined` when the key is absent or the value is not an object). -/
def vGet : Value → String → Value
  | vObj fs, key => getF fs key
  | _, _ => vUndef

/-- Strict-mode property assignment `target[key] = v`: updates plain
objects, raises `TypeError` on `null`, `undefined` and primitives (the
plugin never assigns onto a `Date`, so treating non-plain-objects
uniformly is faithful at every call site). -/
def jsSetProp : Value → String → Value → Except JsErr Value
  | vObj fs, key, v => Except.ok (vObj (setF fs key v))
  | _, _, _ => Except.error JsErr.typeError

/-- Generic association update (used for schema objects and the model
cache). -/
def setA {α : Type} : List (String × α) → String → α → List (String × α)
  | [], key, v => [(key, v)]
  | (k, w) :: rest, key, v =>
      if k = key then (k, v) :: rest else (k, w) :: setA rest key v

def lookupA {α : Type} : List (String × α) → String → Option α
  | [], _ => none
  | (k, w) :: rest, key => if k = key then some w else lookupA rest key

mutual

/-- Modelled from the spec: the `deepDiff` module `require`d by
`mongoose-history.js` is not under `src/`.  Spec section 4.2 step 5 says
composite values "recurse into a structural diff that reports only fields
that differ (not the whole sub-object)"; we model it as returning `null`
(no change) for equal inputs and otherwise, for two objects, the mapping
of recursively differing fields. -/
def deepDiff (original new : Value) : Value :=
  if beqV original new then vNull
  else
    match original, new with
    | vObj fo, vObj fn => vObj (deepDiffFields fo fn)
    | _, _ => new

/-- Modelled from the spec: per-field part of `deepDiff`. -/
def deepDiffFields (fo : JsObj) : JsObj → JsObj
  | [] => []
  | (k, v) :: rest =>
    let c := deepDiff (getF fo k) v
    if truthy c then (k, c) :: deepDiffFields fo rest
    else deepDiffFields fo rest

end

/--
`defaultDiffAlgo(key, newValue, originalValue)` from
`mongoose-history.js` lines 374-400: the per-field diff used unless a
`customDiffAlgo` is configured.  `'null'` is the string sentinel the
caller later turns into `null`.
-/
def defaultDiffAlgo (key : String) (newValue originalValue : Value) : Value :=
  if key = "updatedAt" then vNull
  else if truthy originalValue && !truthy newValue then vStr "null"
  else if !truthy originalValue && truthy newValue then newValue
  else
    match newValue, originalValue with
    | vDate t1, vDate t2 => if t1 = t2 then vNull else vDate t1
    | _, _ =>
      if jsTypeof newValue = "object" && jsTypeof originalValue = "object" then
        deepDiff originalValue newValue
      else if beqV newValue originalValue then vNull
      else newValue

/-- The `HACK` in `_saveHistory` lines 163-166: a per-field diff equal to
the string `'null'` is replaced by `null` before being stored. -/
def resolveNullStr (c : Value) : Value :=
  if beqV c (vStr "null") then vNull else c

/--
The diff assembly of `_saveHistory` lines 158-169 (diff-only update):

    let diff = {};
    diff['_id'] = newDoc['_id'];
    for (let key in newDoc) {
        let customDiff = customDiffAlgo(key, newDoc[key], originalDoc[key]);
        if (customDiff) {
            if (customDiff === 'null') customDiff = null;
            diff[key] = customDiff
        }
    }
-/
def buildDiffStep (algo : String → Value → Value → Value) (newDoc origDoc : JsObj)
    (diff : JsObj) (key : String) : JsObj :=
  let customDiff := algo key (getF newDoc key) (getF origDoc key)
  if truthy customDiff then setF diff key (resolveNullStr customDiff) else diff

def buildDiff (algo : String → Value → Value → Value) (newDoc origDoc : JsObj) : JsObj :=
  (keysOf newDoc).foldl (buildDiffStep algo newDoc origDoc) [("_id", getF newDoc "_id")]

/-- Type/required tag of one field of the history schema. -/
structure FieldSpec where
  ftype : String
  required : Bool
deriving DecidableEq, Repr

/-- The `modifiedBy` plugin option (`{schemaType, contextPath, blacklist}`);
a missing blacklist is the empty list, matching the code's
`modifiedBy.blacklist && modifiedBy.blacklist.length` guard. -/
structure ModifiedByCfg where
  schemaType : String
  contextPath : String
  blacklist : List String

/-- A configured metadata extractor: a field name to copy from the new
document, a synchronous `(original, new) => value` function, or a
three-argument asynchronous extractor modelled by the `(err, data)` pair
it passes to its callback. -/
inductive MetaValue where
  | fieldName : String → MetaValue
  | syncFn : (Value → Value → Value) → MetaValue
  | asyncFn : (Value → Value → Option String × Value) → MetaValue

/-- One `{key, value, schema?}` entry of the `metadata` option. -/
structure MetaPair where
  key : String
  value : MetaValue
  schema : Option FieldSpec

/-- The plugin options recognized by `historyPlugin`. -/
structure Options where
  customCollectionName : Option String
  customDiffAlgo : Option (String → Value → Value → Value)
  diffOnly : Bool
  metadata : Option (List MetaPair)
  modifiedBy : Option ModifiedByCfg
  includeCollectionName : Bool
  indexes : Option (List String)
  historyConnection : Option Nat

/-- Ambient state at the time a mutation fires: the actor stored in the
request context (`contextService.get`, `undefined` when unset), the
`currentUser` fallback captured by the `findOne` middleware (initially
`null`), and the current time. -/
structure Env where
  ctxActor : Value
  currentUser : Value
  now : Nat

/-- The blacklist loop of `addModifiedByInfo` lines 199-204: strict-mode
property assignments `_modifiedBy[key] = undefined`, in order. -/
def applyBlacklist (bl : List String) (actor : Value) : Except JsErr Value :=
  bl.foldlM (fun a key => jsSetProp a key vUndef) actor

/--
`addModifiedByInfo(historyDoc)` lines 188-208.  The actor is fetched from
the context (falling back to `currentUser`) *by reference*; the blacklist
loop assigns through that reference, so the function also yields the
post-call state of the context actor and of the fallback, whichever the
reference aliased.
-/
def addModifiedByInfo (cfg : Option ModifiedByCfg) (ctxActor currentUser : Value)
    (historyDoc : JsObj) : Except JsErr (JsObj × Value × Value) :=
  match cfg with
  | none => Except.ok (historyDoc, ctxActor, currentUser)
  | some mb =>
    let m0 := if truthy ctxActor then ctxActor else currentUser
    (if mb.blacklist.length ≠ 0 then applyBlacklist mb.blacklist m0 else Except.ok m0).map
      (fun m =>
        (setF historyDoc "modifiedBy" m,
         if truthy ctxActor then m else ctxActor,
         if truthy ctxActor then currentUser else m))

/-- JavaScript default stringification `v.toString()` at the one place
the plugin uses it; a plain object gives the generic object text. -/
def jsToString : Value → String
  | vNull => "null"
  | vUndef => "undefined"
  | vBool b => if b then "true" else "false"
  | vNum n => String.mk (natToChars n)
  | vStr s => s
  | vDate t => String.mk (dateChars t)
  | vObj _ => "[object Object]"

/-- `docId` stringification of `createHistoryDoc` lines 247-252: values
whose default stringification is the generic object text are
`JSON.stringify`ed instead. -/
def docIdString (v : Value) : String :=
  if jsToString v = "[object Object]" then
    match stringifyVal v with
    | some cs => String.mk cs
    | none => "undefined"
  else jsToString v

/--
`createHistoryDoc(doc, diff, operation, collectionName, additionalFields)`
lines 221-267.  The produced history document is a plain JavaScript
object (association list); besides it, the post-call states of the
context actor and the `currentUser` fallback are returned, since
`addModifiedByInfo` can mutate them through the shared reference.
-/
def createHistoryDoc (opts : Options) (env : Env) (doc0 diff0 : Value)
    (operation : String) (collectionName : String) (additionalFields : Option JsObj) :
    Except JsErr (JsObj × Value × Value) := do
  let docD := if truthy doc0 then doc0 else vObj []
  let diffD := if truthy diff0 then diff0 else vObj []
  let docS ← sanitizeObj docD
  let diffS ← sanitizeObj diffD
  let docU ← jsSetProp docS "__v" vUndef
  let diffU ← jsSetProp diffS "__v" vUndef
  let hd : JsObj := [("doc", docU), ("diff", diffU), ("op", vStr operation), ("date", vDate env.now)]
  let hd := if opts.includeCollectionName then setF hd "col" (vStr collectionName) else hd
  let docId := if truthy (vGet docU "_id") then vGet docU "_id"
               else if truthy (vGet diffU "_id") then vGet diffU "_id"
               else vNull
  let hd := if truthy docId then setF hd "docId" (vStr (docIdString docId)) else hd
  let r ← addModifiedByInfo opts.modifiedBy env.ctxActor env.currentUser hd
  let hd := r.1
  let hd := match additionalFields with
    | none => hd
    | some af => setF hd "additionalFields" (vObj (af.foldl (fun acc p => setF acc p.1 p.2) []))
  return (hd, r.2.1, r.2.2)

/-- One `async.each` iteration of `setMetadata` lines 322-338, on the
object the iterations mutate.  The second component lists the calls made
to the iteration callback in order (`none` a success call, `some e` an
error call); note the error path of an asynchronous extractor lacks a
`return`, so it still assigns `data` and calls the callback again. -/
def metaStep (originalDoc newDoc : Value) (doc : JsObj) (p : MetaPair) :
    JsObj × List (Option String) :=
  match p.value with
  | MetaValue.fieldName n =>
      (setF doc p.key (if truthy newDoc then vGet newDoc n else vNull), [none])
  | MetaValue.syncFn f => (setF doc p.key (f originalDoc newDoc), [none])
  | MetaValue.asyncFn f =>
      let r := f originalDoc newDoc
      match r.1 with
      | some e => (setF doc p.key r.2, [some e, none])
      | none => (setF doc p.key r.2, [none])

/--
`setMetadata(originalDoc, newDoc, historyDoc, callback)` lines 318-340,
aggregated over the configured pairs the way `async.each` reports them:
the mutated object, the first error passed to an iteration callback (the
value the final callback receives), and whether some iteration called its
callback twice (which the async library raises on).  The `historyDoc`
argument is the value `saveHistoryModel` passes, and is only mutated when
it is a (truthy) object.
-/
def setMetadata (md : List MetaPair) (originalDoc newDoc : Value) (historyDoc : Value) :
    Value × Option String × Bool :=
  if !truthy historyDoc then (historyDoc, none, false)
  else
    match historyDoc with
    | vObj fs =>
        let r := md.foldl
          (fun (st : JsObj × Option String × Bool) p =>
            let s := metaStep originalDoc newDoc st.1 p
            let itemErr : Option String := match s.2 with
              | some e :: _ => some e
              | _ => none
            (s.1, st.2.1 <|> itemErr, st.2.2 || decide (s.2.length > 1)))
          (fs, none, false)
        (vObj r.1, r.2.1, r.2.2)
    | _ => (historyDoc, none, false)

/-- A registered mongoose model for a history collection: the schema it
was registered with, its indexes, the connection used, and a registration
serial number (fresh per `mongoose.model`/`connection.model` call). -/
structure ModelHandle where
  collectionName : String
  schemaFields : List (String × FieldSpec)
  schemaIndexes : List String
  connection : Option Nat
  registrationId : Nat
deriving DecidableEq, Repr

/-- The process-wide `historyModels` cache of `history-model.js`, plus a
counter supplying registration serial numbers. -/
structure Registry where
  historyModels : List (String × ModelHandle)
  nextRegistrationId : Nat
deriving DecidableEq, Repr

/-- The `schemaObject` of `history-model.js` lines 17-34: the base history
schema, extended with a `modifiedBy` field and one field per metadata key
when those options are configured. -/
def schemaObjectFor (opts : Options) : List (String × FieldSpec) :=
  let base : List (String × FieldSpec) :=
    [("date", ⟨"Date", true⟩), ("op", ⟨"String", true⟩), ("doc", ⟨"Mixed", true⟩),
     ("diff", ⟨"Mixed", false⟩), ("additionalFields", ⟨"Mixed", false⟩),
     ("docId", ⟨"String", false⟩), ("col", ⟨"String", false⟩)]
  let base := match opts.modifiedBy with
    | some mb => setA base "modifiedBy" ⟨mb.schemaType, false⟩
    | none => base
  match opts.metadata with
  | some md => md.foldl (fun b m => setA b m.key (m.schema.getD ⟨"Mixed", false⟩)) base
  | none => base

/-- `HistoryModel(collectionName, options)` of `history-model.js` lines
11-53: returns the cached model for the name, constructing and
registering one (on the configured connection, with the configured
indexes) only when the name is not yet in the cache. -/
def HistoryModel (collectionName : String) (opts : Options) (reg : Registry) :
    ModelHandle × Registry :=
  match lookupA reg.historyModels collectionName with
  | some h => (h, reg)
  | none =>
    let h : ModelHandle :=
      ⟨collectionName, schemaObjectFor opts, opts.indexes.getD [], opts.historyConnection,
        reg.nextRegistrationId⟩
    (h, ⟨reg.historyModels ++ [(collectionName, h)], reg.nextRegistrationId + 1⟩)

/-- `historyCollectionName(collectionName, customCollectionName)` of
`history-model.js` lines 61-67. -/
def historyCollectionName (collectionName : String) (customCollectionName : Option String) :
    String :=
  match customCollectionName with
  | some c => c
  | none => collectionName ++ "_history"

/-- What a call to `saveHistoryModel` leaves behind: the model cache, the
record handed to the store's `save` (none when the save was aborted), the
error passed to the middleware continuation `next`, and whether some
metadata iteration called its callback twice. -/
structure SaveOutcome where
  registryAfter : Registry
  persisted : Option JsObj
  nextErr : Option String
  doubleCb : Bool

/--
`saveHistoryModel(originalDoc, newDoc, historyDoc, collectionName, next)`
lines 291-304.  With metadata configured it first runs `setMetadata` —
note: on `historyDoc.doc`, not on `historyDoc` — and aborts (calling
`next(err)` without registering or saving) when the final callback
receives an error; otherwise it registers/fetches the history model and
saves the record.  A successful store write is assumed (store errors are
an external concern).
-/
def saveHistoryModel (opts : Options) (originalDoc newDoc : Value) (historyDoc : JsObj)
    (collectionName : String) (reg : Registry) : SaveOutcome :=
  match opts.metadata with
  | some md =>
    let r := setMetadata md originalDoc newDoc (getF historyDoc "doc")
    match r.2.1 with
    | some e => ⟨reg, none, some e, r.2.2⟩
    | none =>
      let record := setF historyDoc "doc" r.1
      let hm := HistoryModel (historyCollectionName collectionName opts.customCollectionName) opts reg
      ⟨hm.2, some record, none, r.2.2⟩
  | none =>
    let hm := HistoryModel (historyCollectionName collectionName opts.customCollectionName) opts reg
    ⟨hm.2, some historyDoc, none, false⟩

/-- A mongoose document as the middleware sees it: `isNew`, the
`_original` snapshot captured by the `post('init')` middleware (when
present), and the field state `toObject()` reports. -/
structure MDoc where
  isNew : Bool
  originalSnap : Option JsObj
  state : JsObj

/-- `applyObjectPatch(doc, patch)` lines 312-316. -/
def applyObjectPatch (doc patch : JsObj) : JsObj :=
  patch.foldl (fun d p => setF d p.1 p.2) doc

/-- Everything a history-saving middleware run produces. -/
structure PipelineResult where
  outcome : SaveOutcome
  ctxActorAfter : Value
  currentUserAfter : Value

def jsOfSnap : Option JsObj → Value
  | some o => vObj o
  | none => vUndef

/--
`_saveHistory(doc, operation, collectionName, patchBeforeDiff, next)`
lines 140-178.  In diff-only update mode the per-field diff is assembled
from `doc.toObject()` against `doc._original`; reading `originalDoc[key]`
raises a `TypeError` when no `_original` snapshot exists and the loop
runs.  Otherwise the full `toObject()` state is passed as the `diff`
argument of `createHistoryDoc`.
-/
def saveHistoryRun (opts : Options) (env : Env) (reg : Registry) (doc : MDoc)
    (operation : String) (collectionName : String) (patchBeforeDiff : Option JsObj) :
    Except JsErr PipelineResult := do
  let originalDoc := doc.originalSnap
  if opts.diffOnly && !doc.isNew then
    let newDoc := match patchBeforeDiff with
      | some p => applyObjectPatch doc.state p
      | none => doc.state
    let algo := opts.customDiffAlgo.getD defaultDiffAlgo
    let diff ← match originalDoc with
      | some orig => pure (buildDiff algo newDoc orig)
      | none =>
        if newDoc.isEmpty then pure ([("_id", getF newDoc "_id")])
        else Except.error JsErr.typeError
    let r ← createHistoryDoc opts env (jsOfSnap originalDoc) (vObj diff) "u" collectionName none
    let outcome := saveHistoryModel opts (jsOfSnap originalDoc) (vObj newDoc) r.1 collectionName reg
    return ⟨outcome, r.2.1, r.2.2⟩
  else
    let newDoc := doc.state
    let r ← createHistoryDoc opts env (jsOfSnap originalDoc) (vObj newDoc) operation collectionName none
    let outcome := saveHistoryModel opts (jsOfSnap originalDoc) (vObj newDoc) r.1 collectionName reg
    return ⟨outcome, r.2.1, r.2.2⟩

/-- The `schema.pre('save')` middleware lines 75-78: operation `'i'` for a
new document, `'u'` otherwise. -/
def preSaveHook (opts : Options) (env : Env) (reg : Registry) (doc : MDoc)
    (collectionName : String) : Except JsErr PipelineResult :=
  saveHistoryRun opts env reg doc (if doc.isNew then "i" else "u") collectionName none

/-- The record handed to the store by a middleware run (`none` when the
run errored or aborted before persisting). -/
def persistedRecord : Except JsErr PipelineResult → Option JsObj
  | Except.ok r => r.outcome.persisted
  | Except.error _ => none

/-- A named field of the persisted record, through `persistedRecord`. -/
def persistedField (res : Except JsErr PipelineResult) (key : String) : Option Value :=
  (persistedRecord res).map (fun rec => getF rec key)

/-- The in-place mutations the blacklist loop performs on an actor
object's field list. -/
def strippedF (bl : List String) (fs : JsObj) : JsObj :=
  bl.foldl (fun o k => setF o k vUndef) fs

/-- The error a middleware run passes to its continuation `next`. -/
def nextError : Except JsErr PipelineResult → Option String
  | Except.ok r => r.outcome.nextErr
  | Except.error _ => none

/-- A named field of the record object built by `createHistoryDoc`. -/
def chdField (r : Except JsErr (JsObj × Value × Value)) (key : String) : Option Value :=
  match r with
  | Except.ok p => some (getF p.1 key)
  | Except.error _ => none

/-- Whether the record object built by `createHistoryDoc` has a key. -/
def chdHasField (r : Except JsErr (JsObj × Value × Value)) (key : String) : Option Bool :=
  match r with
  | Except.ok p => some (hasF p.1 key)
  | Except.error _ => none

/-- The record-object assembly of `createHistoryDoc` lines 234-253 (after
sanitization and version-stripping, before `addModifiedByInfo` and
`additionalFields`), factored out so field lookups on the produced record
can be reasoned about uniformly. -/
def hdAssemble (opts : Options) (env : Env) (docU diffU : Value) (operation col : String) :
    JsObj :=
  let hd : JsObj := [("doc", docU), ("diff", diffU), ("op", vStr operation), ("date", vDate env.now)]
  let hd := if opts.includeCollectionName then setF hd "col" (vStr col) else hd
  let docId := if truthy (vGet docU "_id") then vGet docU "_id"
               else if truthy (vGet diffU "_id") then vGet diffU "_id"
               else vNull
  if truthy docId then setF hd "docId" (vStr (docIdString docId)) else hd

/-- Whether a character pattern occurs anywhere in a text (the search
`String.prototype.replace` performs). -/
def hasPat (pat : List Char) : List Char → Bool
  | [] => false
  | c :: rest => pat.isPrefixOf (c :: rest) || hasPat pat rest

/-- Characters allowed in modelled keys and string contents for the
sanitizer theorems: no double quote, no backslash, no apostrophe. -/
def cleanChars (cs : List Char) : Bool :=
  cs.all (fun c => !(c = qC) && !(c = bsC) && !(c = apC))

/-- The text does not begin with a dollar sign. -/
def noDollarHead : List Char → Bool
  | [] => true
  | c :: _ => !(c = dolC)

mutual

/-- Cleanliness of a value for the sanitizer theorems: every string value
has clean characters and does not start with `$`, and every object is a
clean field list. -/
def cleanV : Value → Bool
  | vStr s => cleanChars s.data && noDollarHead s.data
  | vObj fs => cleanF fs
  | _ => true

/-- Cleanliness of a field list: keys have clean characters and do not
start with `$`, values are clean, and keys are pairwise distinct. -/
def cleanF : List (String × Value) → Bool
  | [] => true
  | (k, v) :: rest =>
      cleanChars k.data && noDollarHead k.data && cleanV v && !hasF rest k && cleanF rest

end

mutual

/-- The normalization a `JSON.stringify`/`JSON.parse` round trip applies
to a value: `Date`s become their timestamp strings and `undefined`-valued
members disappear. -/
def normV : Value → Value
  | vDate t => vStr (String.mk (dateChars t))
  | vObj fs => vObj (normF fs)
  | v => v

/-- `normV` on a field list. -/
def normF : List (String × Value) → List (String × Value)
  | [] => []
  | (k, v) :: rest =>
    match v with
    | vUndef => normF rest
    | _ => (k, normV v) :: normF rest

end

mutual

/-- Fuel needed by `parseVal` for a value: one unit per nesting level and
per object member. -/
def depthV : Value → Nat
  | vObj fs => depthF fs + 1
  | _ => 1

/-- Fuel needed by `parseMembers` for a field list. -/
def depthF : List (String × Value) → Nat
  | [] => 0
  | (_, v) :: rest => max (depthV v) (depthF rest) + 1

end

/-- Every serialized entry followed by a comma: the shape of the part of a
serialized object that precedes a chosen member. -/
def joinInit (es : List (List Char)) : List Char :=
  es.foldr (fun e acc => e ++ comC :: acc) []

mutual

theorem beqV_refl : (v : Value) → beqV v v = true
  | vNull => rfl
  | vUndef => rfl
  | vBool a => by simp [beqV]
  | vNum a => by simp [beqV]
  | vStr a => by simp [beqV]
  | vDate a => by simp [beqV]
  | vObj fs => by simpa [beqV] using beqFields_refl fs

theorem beqFields_refl : (fs : List (String × Value)) → beqFields fs fs = true
  | [] => rfl
  | (k, v) :: r => by simp [beqFields, beqV_refl v, beqFields_refl r]

end

--------------------------------------------------------------------------
-- Helper lemmas
--------------------------------------------------------------------------

theorem getF_setF_self (o : JsObj) (k : String) (v : Value) : getF (setF o k v) k = v := by
  induction o with
  | nil => simp [setF, getF]
  | cons p rest ih =>
    obtain ⟨pk, pv⟩ := p
    by_cases h : pk = k
    · simp [setF, h, getF]
    · simp [setF, h, getF, ih]

theorem getF_setF_ne (o : JsObj) (k k' : String) (v : Value) (h : k' ≠ k) :
    getF (setF o k' v) k = getF o k := by
  induction o with
  | nil => simp [setF, getF, h]
  | cons p rest ih =>
    obtain ⟨pk, pv⟩ := p
    by_cases hp : pk = k'
    · subst hp
      simp [setF, getF, h]
    · simp [setF, hp, getF, ih]

theorem hasF_setF (o : JsObj) (k k' : String) (v : Value) :
    hasF (setF o k' v) k = (decide (k' = k) || hasF o k) := by
  induction o with
  | nil => simp [setF, hasF]
  | cons p rest ih =>
    obtain ⟨pk, pv⟩ := p
    by_cases hp : pk = k'
    · subst hp
      simp [setF, hasF]
    · simp [setF, hp, hasF, ih]
      by_cases h1 : pk = k <;> by_cases h2 : k' = k <;> simp [h1, h2]

theorem getF_of_hasF_eq_false (o : JsObj) (k : String) (h : hasF o k = false) :
    getF o k = vUndef := by
  induction o with
  | nil => simp [getF]
  | cons p rest ih =>
    obtain ⟨pk, pv⟩ := p
    simp [hasF] at h
    simp [getF, h.1, ih h.2]

theorem foldl_buildDiffStep_notmem (algo : String → Value → Value → Value)
    (newDoc origDoc : JsObj) (L : List String) (d : JsObj) (k : String) (hk : k ∉ L) :
    getF (L.foldl (buildDiffStep algo newDoc origDoc) d) k = getF d k := by
  induction L generalizing d with
  | nil => rfl
  | cons a rest ih =>
    have hka : k ∉ rest := fun h => hk (List.mem_cons_of_mem a h)
    have hak : a ≠ k := fun h => hk (h ▸ List.mem_cons_self a rest)
    rw [List.foldl_cons, ih _ hka]
    unfold buildDiffStep
    by_cases ht : truthy (algo a (getF newDoc a) (getF origDoc a)) <;>
      simp [ht, getF_setF_ne _ _ _ _ hak]

theorem foldl_buildDiffStep_hasF_notmem (algo : String → Value → Value → Value)
    (newDoc origDoc : JsObj) (L : List String) (d : JsObj) (k : String) (hk : k ∉ L) :
    hasF (L.foldl (buildDiffStep algo newDoc origDoc) d) k = hasF d k := by
  induction L generalizing d with
  | nil => rfl
  | cons a rest ih =>
    have hka : k ∉ rest := fun h => hk (List.mem_cons_of_mem a h)
    have hak : a ≠ k := fun h => hk (h ▸ List.mem_cons_self a rest)
    rw [List.foldl_cons, ih _ hka]
    unfold buildDiffStep
    by_cases ht : truthy (algo a (getF newDoc a) (getF origDoc a)) <;>
      simp [ht, hasF_setF, hak]

theorem foldl_buildDiffStep_mem (algo : String → Value → Value → Value)
    (newDoc origDoc : JsObj) (L : List String) (d : JsObj) (k : String)
    (hnd : L.Nodup) (hk : k ∈ L) :
    getF (L.foldl (buildDiffStep algo newDoc origDoc) d) k =
      (if truthy (algo k (getF newDoc k) (getF origDoc k)) then
        resolveNullStr (algo k (getF newDoc k) (getF origDoc k))
      else getF d k) := by
  induction L generalizing d with
  | nil => exact absurd hk (List.not_mem_nil k)
  | cons a rest ih =>
    rcases List.mem_cons.mp hk with h | h
    · subst h
      have hkr : k ∉ rest := (List.nodup_cons.mp hnd).1
      rw [List.foldl_cons, foldl_buildDiffStep_notmem _ _ _ _ _ _ hkr]
      unfold buildDiffStep
      by_cases ht : truthy (algo k (getF newDoc k) (getF origDoc k)) <;>
        simp [ht, getF_setF_self]
    · rw [List.foldl_cons, ih _ (List.nodup_cons.mp hnd).2 h]
      have hak : a ≠ k := fun hh => (List.nodup_cons.mp hnd).1 (hh ▸ h)
      have hstep : getF (buildDiffStep algo newDoc origDoc d a) k = getF d k := by
        unfold buildDiffStep
        by_cases ht : truthy (algo a (getF newDoc a) (getF origDoc a)) <;>
          simp [ht, getF_setF_ne _ _ _ _ hak]
      rw [hstep]

theorem foldl_buildDiffStep_hasF_mem (algo : String → Value → Value → Value)
    (newDoc origDoc : JsObj) (L : List String) (d : JsObj) (k : String)
    (hnd : L.Nodup) (hk : k ∈ L) :
    hasF (L.foldl (buildDiffStep algo newDoc origDoc) d) k =
      (if truthy (algo k (getF newDoc k) (getF origDoc k)) then true else hasF d k) := by
  induction L generalizing d with
  | nil => exact absurd hk (List.not_mem_nil k)
  | cons a rest ih =>
    rcases List.mem_cons.mp hk with h | h
    · subst h
      have hkr : k ∉ rest := (List.nodup_cons.mp hnd).1
      rw [List.foldl_cons, foldl_buildDiffStep_hasF_notmem _ _ _ _ _ _ hkr]
      unfold buildDiffStep
      by_cases ht : truthy (algo k (getF newDoc k) (getF origDoc k)) <;>
        simp [ht, hasF_setF]
    · rw [List.foldl_cons, ih _ (List.nodup_cons.mp hnd).2 h]
      have hak : a ≠ k := fun hh => (List.nodup_cons.mp hnd).1 (hh ▸ h)
      have hstep : hasF (buildDiffStep algo newDoc origDoc d a) k = hasF d k := by
        unfold buildDiffStep
        by_cases ht : truthy (algo a (getF newDoc a) (getF origDoc a)) <;>
          simp [ht, hasF_setF, hak]
      rw [hstep]

/-- The default diff algorithm reports no change when old and new values
are equal. -/
theorem defaultDiffAlgo_self (k : String) (v : Value) : defaultDiffAlgo k v v = vNull := by
  by_cases hk : k = "updatedAt"
  · simp [defaultDiffAlgo, hk]
  · cases v <;>
      simp [defaultDiffAlgo, hk, truthy, jsTypeof, deepDiff, beqV_refl, beqV, beqFields_refl]

theorem nontruthy_not_obj (v : Value) (h : truthy v = false) (fs : JsObj) : v ≠ vObj fs := by
  cases v <;> simp_all [truthy]

theorem applyBlacklist_obj (bl : List String) (fs : JsObj) :
    applyBlacklist bl (vObj fs) = Except.ok (vObj (strippedF bl fs)) := by
  induction bl generalizing fs with
  | nil => rfl
  | cons a rest ih => simpa [applyBlacklist, strippedF, List.foldlM, jsSetProp] using ih _

theorem lookupA_append_of_notfound {α : Type} (l : List (String × α)) (name : String) (h : α)
    (hl : lookupA l name = none) : lookupA (l ++ [(name, h)]) name = some h := by
  induction l with
  | nil => simp [lookupA]
  | cons p rest ih =>
    obtain ⟨pk, pv⟩ := p
    by_cases hp : pk = name
    · simp [lookupA, hp] at hl
    · simp [lookupA, hp] at hl ⊢
      exact ih hl

theorem jsSetProp_nontruthy (v : Value) (h : truthy v = false) (k : String) (w : Value) :
    jsSetProp v k w = Except.error JsErr.typeError := by
  cases v <;> simp_all [truthy, jsSetProp]

theorem hdAssemble_getF_doc (opts : Options) (env : Env) (docU diffU : Value)
    (op col : String) : getF (hdAssemble opts env docU diffU op col) "doc" = docU := by
  unfold hdAssemble
  by_cases h1 : opts.includeCollectionName <;>
    by_cases h2 : truthy (if truthy (vGet docU "_id") then vGet docU "_id"
      else if truthy (vGet diffU "_id") then vGet diffU "_id" else vNull) <;>
    simp [h1, h2, setF, getF]

theorem hdAssemble_getF_diff (opts : Options) (env : Env) (docU diffU : Value)
    (op col : String) : getF (hdAssemble opts env docU diffU op col) "diff" = diffU := by
  unfold hdAssemble
  by_cases h1 : opts.includeCollectionName <;>
    by_cases h2 : truthy (if truthy (vGet docU "_id") then vGet docU "_id"
      else if truthy (vGet diffU "_id") then vGet diffU "_id" else vNull) <;>
    simp [h1, h2, setF, getF]

theorem hdAssemble_getF_op (opts : Options) (env : Env) (docU diffU : Value)
    (op col : String) : getF (hdAssemble opts env docU diffU op col) "op" = vStr op := by
  unfold hdAssemble
  by_cases h1 : opts.includeCollectionName <;>
    by_cases h2 : truthy (if truthy (vGet docU "_id") then vGet docU "_id"
      else if truthy (vGet diffU "_id") then vGet diffU "_id" else vNull) <;>
    simp [h1, h2, setF, getF]

theorem createHistoryDoc_ok (opts : Options) (env : Env) (doc0 diff0 : Value)
    (op col : String) (fsD fsF : JsObj)
    (hdoc : sanitizeObj (if truthy doc0 then doc0 else vObj []) = Except.ok (vObj fsD))
    (hdiff : sanitizeObj (if truthy diff0 then diff0 else vObj []) = Except.ok (vObj fsF))
    (hmb : opts.modifiedBy = none) :
    createHistoryDoc opts env doc0 diff0 op col none =
      Except.ok (hdAssemble opts env (vObj (setF fsD "__v" vUndef))
        (vObj (setF fsF "__v" vUndef)) op col, env.ctxActor, env.currentUser) := by
  unfold createHistoryDoc hdAssemble
  simp [hdoc, hdiff, hmb, jsSetProp, addModifiedByInfo, Except.map, bind, Except.bind,
    pure, Except.pure]

theorem saveHistoryModel_no_md (opts : Options) (o n : Value) (hd : JsObj)
    (col : String) (reg : Registry) (hm : opts.metadata = none) :
    saveHistoryModel opts o n hd col reg =
      ⟨(HistoryModel (historyCollectionName col opts.customCollectionName) opts reg).2,
        some hd, none, false⟩ := by
  simp [saveHistoryModel, hm]

--------------------------------------------------------------------------
-- Claim theorems
--------------------------------------------------------------------------

/-- C1, counterexample: on the insert of a new document with state
`{title: "A"}`, the persisted record's `doc` field is the empty original
snapshot (just the unset version key), not the sanitized new state — the
full new state is stored in `diff` instead.  The third and fourth
conjuncts record that the `doc` field differs from the sanitized new
state both with and without the version-stripping step. -/
theorem c1_counterexample :
    persistedField (preSaveHook ⟨none, none, false, none, none, false, none, none⟩
        ⟨vUndef, vNull, 77⟩ ⟨[], 0⟩ ⟨true, none, [("title", vStr "A")]⟩ "posts") "doc"
      = some (vObj [("__v", vUndef)])
    ∧ sanitizeObj (vObj [("title", vStr "A")]) = Except.ok (vObj [("title", vStr "A")])
    ∧ vObj [("__v", vUndef)] ≠ vObj [("title", vStr "A")]
    ∧ vObj [("__v", vUndef)] ≠ vObj [("title", vStr "A"), ("__v", vUndef)] := by
  refine ⟨rfl, rfl, ?_, ?_⟩ <;> simp

/-- C1 (amended): for every insert (save of a new document, no metadata
or actor tracking configured), the persisted record has operation kind
`'i'`, its `diff` field holds the full sanitized new state (with the
version key unset) — never a reduced delta — and its `doc` field holds
the empty original snapshot. -/
theorem c1_insert_record (opts : Options) (env : Env) (reg : Registry) (st : JsObj)
    (col : String) (fsF : JsObj)
    (hm : opts.metadata = none) (hmb : opts.modifiedBy = none)
    (hs : sanitizeObj (vObj st) = Except.ok (vObj fsF)) :
    persistedField (preSaveHook opts env reg ⟨true, none, st⟩ col) "op" = some (vStr "i")
    ∧ persistedField (preSaveHook opts env reg ⟨true, none, st⟩ col) "doc"
        = some (vObj [("__v", vUndef)])
    ∧ persistedField (preSaveHook opts env reg ⟨true, none, st⟩ col) "diff"
        = some (vObj (setF fsF "__v" vUndef)) := by
  have hdoc : sanitizeObj (if truthy (jsOfSnap none) then jsOfSnap none else vObj [])
      = Except.ok (vObj []) := rfl
  have hdiff : sanitizeObj (if truthy (vObj st) then vObj st else vObj [])
      = Except.ok (vObj fsF) := hs
  have hc := createHistoryDoc_ok opts env (jsOfSnap none) (vObj st) "i" col [] fsF
    hdoc hdiff hmb
  unfold preSaveHook saveHistoryRun
  simp only [MDoc.isNew, Bool.not_true, Bool.and_false, if_true, if_false, Bool.false_eq_true,
    ite_false, ite_true]
  simp [hc, bind, Except.bind, pure, Except.pure, saveHistoryModel_no_md _ _ _ _ _ _ hm,
    persistedField, persistedRecord, hdAssemble_getF_op, hdAssemble_getF_doc,
    hdAssemble_getF_diff, setF]

/-- C1, witness for the amended theorem at a concrete insert. -/
theorem c1_insert_record_witness :
    (⟨none, none, false, none, none, false, none, none⟩ : Options).metadata = none
    ∧ (⟨none, none, false, none, none, false, none, none⟩ : Options).modifiedBy = none
    ∧ sanitizeObj (vObj [("title", vStr "A")]) = Except.ok (vObj [("title", vStr "A")])
    ∧ persistedField (preSaveHook ⟨none, none, false, none, none, false, none, none⟩
        ⟨vUndef, vNull, 77⟩ ⟨[], 0⟩ ⟨true, none, [("title", vStr "A")]⟩ "posts") "op"
      = some (vStr "i") :=
  ⟨rfl, rfl, rfl,
    (c1_insert_record ⟨none, none, false, none, none, false, none, none⟩
      ⟨vUndef, vNull, 77⟩ ⟨[], 0⟩ [("title", vStr "A")] "posts"
      [("title", vStr "A")] rfl rfl rfl).1⟩

/-- C2, counterexample: in the diff-only update of `{_id:1, x:0}` to
`{_id:1, x:""}` the values of `x` differ and the per-field diff algorithm
yields the non-absent result `""`, yet `x` is omitted from the diff (the
code tests the result for truthiness, not for non-absence), so the
persisted diff holds only `_id`. -/
theorem c2_counterexample :
    defaultDiffAlgo "x" (vStr "") (vNum 0) = vStr ""
    ∧ vStr "" ≠ vNull
    ∧ getF [("_id", vNum 1), ("x", vStr "")] "x" ≠ getF [("_id", vNum 1), ("x", vNum 0)] "x"
    ∧ hasF (buildDiff defaultDiffAlgo [("_id", vNum 1), ("x", vStr "")]
        [("_id", vNum 1), ("x", vNum 0)]) "x" = false
    ∧ persistedField (preSaveHook ⟨none, none, true, none, none, false, none, none⟩
        ⟨vUndef, vNull, 77⟩ ⟨[], 0⟩
        ⟨false, some [("_id", vNum 1), ("x", vNum 0)], [("_id", vNum 1), ("x", vStr "")]⟩
        "posts") "diff"
      = some (vObj [("_id", vNum 1), ("__v", vUndef)]) := by
  refine ⟨rfl, ?_, ?_, rfl, rfl⟩ <;> simp [getF]

/-- C2 (amended): in diff-only update mode the diff contains the `_id`
field plus exactly those fields of the new document whose per-field diff
output is truthy; fields of equal value are absent (the default algorithm
reports no change on them), truthy outputs are stored after resolving the
`'null'` sentinel, but differing fields whose output is falsy (`0`,
`false`, `""`) are omitted as well.  The last conjunct carries the
characterization to the persisted record's `diff` field. -/
theorem c2_diffonly_update (algo : String → Value → Value → Value) (newDoc origDoc : JsObj)
    (hnd : (keysOf newDoc).Nodup) :
    (hasF (buildDiff algo newDoc origDoc) "_id" = true)
    ∧ (∀ k, k ≠ "_id" →
        (hasF (buildDiff algo newDoc origDoc) k = true ↔
          k ∈ keysOf newDoc ∧ truthy (algo k (getF newDoc k) (getF origDoc k)) = true))
    ∧ (∀ k, k ∈ keysOf newDoc → truthy (algo k (getF newDoc k) (getF origDoc k)) = true →
        getF (buildDiff algo newDoc origDoc) k
          = resolveNullStr (algo k (getF newDoc k) (getF origDoc k)))
    ∧ (∀ k, getF newDoc k = getF origDoc k → k ≠ "_id" →
        hasF (buildDiff defaultDiffAlgo newDoc origDoc) k = false)
    ∧ (∀ (opts : Options) (env : Env) (reg : Registry) (col : String) (fsO fsB : JsObj),
        opts.diffOnly = true → opts.metadata = none → opts.modifiedBy = none →
        opts.customDiffAlgo = some algo →
        sanitizeObj (vObj origDoc) = Except.ok (vObj fsO) →
        sanitizeObj (vObj (buildDiff algo newDoc origDoc)) = Except.ok (vObj fsB) →
        persistedField (preSaveHook opts env reg ⟨false, some origDoc, newDoc⟩ col) "diff"
          = some (vObj (setF fsB "__v" vUndef))) := by
  refine ⟨?_, ?_, ?_, ?_, ?_⟩
  · by_cases hmem : "_id" ∈ keysOf newDoc
    · unfold buildDiff
      rw [foldl_buildDiffStep_hasF_mem _ _ _ _ _ _ hnd hmem]
      by_cases ht : truthy (algo "_id" (getF newDoc "_id") (getF origDoc "_id")) <;>
        simp [ht, hasF]
    · unfold buildDiff
      rw [foldl_buildDiffStep_hasF_notmem _ _ _ _ _ _ hmem]
      simp [hasF]
  · intro k hk
    by_cases hmem : k ∈ keysOf newDoc
    · unfold buildDiff
      rw [foldl_buildDiffStep_hasF_mem _ _ _ _ _ _ hnd hmem]
      by_cases ht : truthy (algo k (getF newDoc k) (getF origDoc k)) <;>
        simp [ht, hasF, hmem, Ne.symm hk]
    · unfold buildDiff
      rw [foldl_buildDiffStep_hasF_notmem _ _ _ _ _ _ hmem]
      simp [hasF, hmem, Ne.symm hk]
  · intro k hmem ht
    unfold buildDiff
    rw [foldl_buildDiffStep_mem _ _ _ _ _ _ hnd hmem]
    simp [ht]
  · intro k hkeq hk
    have halgo : defaultDiffAlgo k (getF newDoc k) (getF origDoc k) = vNull := by
      rw [hkeq]
      exact defaultDiffAlgo_self k (getF origDoc k)
    by_cases hmem : k ∈ keysOf newDoc
    · unfold buildDiff
      rw [foldl_buildDiffStep_hasF_mem _ _ _ _ _ _ hnd hmem]
      simp [halgo, truthy, hasF, Ne.symm hk]
    · unfold buildDiff
      rw [foldl_buildDiffStep_hasF_notmem _ _ _ _ _ _ hmem]
      simp [hasF, Ne.symm hk]
  · intro opts env reg col fsO fsB hdo hm hmb hca hso hsb
    have hdoc : sanitizeObj (if truthy (jsOfSnap (some origDoc)) then jsOfSnap (some origDoc)
        else vObj []) = Except.ok (vObj fsO) := hso
    have hdiff : sanitizeObj (if truthy (vObj (buildDiff algo newDoc origDoc))
        then vObj (buildDiff algo newDoc origDoc) else vObj [])
        = Except.ok (vObj fsB) := hsb
    have hc := createHistoryDoc_ok opts env (jsOfSnap (some origDoc))
      (vObj (buildDiff algo newDoc origDoc)) "u" col fsO fsB hdoc hdiff hmb
    unfold preSaveHook saveHistoryRun
    simp only [MDoc.isNew, MDoc.originalSnap, MDoc.state, Bool.not_false, Bool.and_true, hdo,
      if_true, ite_true, Bool.not_true, Bool.and_false]
    simp [hca, hc, bind, Except.bind, pure, Except.pure,
      saveHistoryModel_no_md _ _ _ _ _ _ hm, persistedField, persistedRecord,
      hdAssemble_getF_diff]

/-- C2, witness for the amended theorem at a concrete diff-only update. -/
theorem c2_diffonly_update_witness :
    (keysOf [("_id", vNum 1), ("a", vNum 2)]).Nodup
    ∧ ("a" : String) ∈ keysOf [("_id", vNum 1), ("a", vNum 2)]
    ∧ truthy (defaultDiffAlgo "a" (getF [("_id", vNum 1), ("a", vNum 2)] "a")
        (getF [("_id", vNum 1), ("a", vNum 3)] "a")) = true
    ∧ getF (buildDiff defaultDiffAlgo [("_id", vNum 1), ("a", vNum 2)]
          [("_id", vNum 1), ("a", vNum 3)]) "a"
      = resolveNullStr (defaultDiffAlgo "a" (getF [("_id", vNum 1), ("a", vNum 2)] "a")
          (getF [("_id", vNum 1), ("a", vNum 3)] "a")) :=
  ⟨by decide, by decide, by decide,
    (c2_diffonly_update defaultDiffAlgo [("_id", vNum 1), ("a", vNum 2)]
      [("_id", vNum 1), ("a", vNum 3)] (by decide)).2.2.1 "a" (by decide) (by decide)⟩

/-- C3 (code bug): the history schema declares a top-level field for each
configured metadata key (`schemaObject[m.key]` in `history-model.js`),
but `saveHistoryModel` hands `setMetadata` the record's `doc` sub-object
instead of the record, so the resolved value (`newDoc["who"]` here) lands
inside the record's `doc` field and the declared top-level field is never
populated. -/
theorem c3_metadata_lands_in_doc :
    lookupA (schemaObjectFor ⟨none, none, false,
        some [⟨"author", MetaValue.fieldName "who", none⟩], none, false, none, none⟩) "author"
      = some ⟨"Mixed", false⟩
    ∧ (persistedRecord (preSaveHook ⟨none, none, false,
          some [⟨"author", MetaValue.fieldName "who", none⟩], none, false, none, none⟩
          ⟨vUndef, vNull, 77⟩ ⟨[], 0⟩ ⟨true, none, [("who", vStr "bob"), ("t", vNum 3)]⟩
          "posts")).map
        (fun rec => (hasF rec "author", vGet (getF rec "doc") "author"))
      = some (false, vStr "bob") := ⟨rfl, rfl⟩

/-- C4 (code bug): when a three-argument metadata extractor reports an
error, the error is surfaced to `next` and the record is not persisted,
but the extractor's callback body lacks a `return`: it still assigns the
callback's `data` onto the record object after reporting the error and
invokes the iteration callback a second time (`setMetadata` returns the
mutated object, the first error, and the double-call flag). -/
theorem c4_async_error_keeps_going :
    nextError (preSaveHook ⟨none, none, false,
        some [⟨"k", MetaValue.asyncFn (fun _ _ => (some "boom", vStr "d")), none⟩],
        none, false, none, none⟩
        ⟨vUndef, vNull, 77⟩ ⟨[], 0⟩ ⟨true, none, [("t", vNum 3)]⟩ "posts") = some "boom"
    ∧ persistedRecord (preSaveHook ⟨none, none, false,
        some [⟨"k", MetaValue.asyncFn (fun _ _ => (some "boom", vStr "d")), none⟩],
        none, false, none, none⟩
        ⟨vUndef, vNull, 77⟩ ⟨[], 0⟩ ⟨true, none, [("t", vNum 3)]⟩ "posts") = none
    ∧ setMetadata [⟨"k", MetaValue.asyncFn (fun _ _ => (some "boom", vStr "d")), none⟩]
        vUndef (vObj [("t", vNum 3)]) (vObj [])
      = (vObj [("k", vStr "d")], some "boom", true) := ⟨rfl, rfl, rfl⟩

/-- C5, counterexample: with actor-tracking configured with the non-empty
blacklist `["password"]` and no resolvable actor (context lookup
`undefined`, captured fallback still its initial `null`), building the
history record raises a `TypeError` (the blacklist loop assigns a
property on `null`) instead of omitting the field. -/
theorem c5_counterexample :
    preSaveHook ⟨none, none, false, none,
        some ⟨"Mixed", "request:userInfo", ["password"]⟩, false, none, none⟩
        ⟨vUndef, vNull, 77⟩ ⟨[], 0⟩ ⟨true, none, [("t", vNum 3)]⟩ "posts"
      = Except.error JsErr.typeError := rfl

/-- C5 (amended): with actor tracking configured and no resolvable actor,
record construction only degrades gracefully when the blacklist is empty
or absent — and then the `modifiedBy` field is set to the unresolved
fallback value (`null`), not omitted; with a non-empty blacklist it
raises a `TypeError`. -/
theorem c5_no_actor (cfg : ModifiedByCfg) (ctx cur : Value) (hd : JsObj)
    (hctx : truthy ctx = false) (hcur : truthy cur = false) :
    (cfg.blacklist = [] →
      addModifiedByInfo (some cfg) ctx cur hd
        = Except.ok (setF hd "modifiedBy" cur, ctx, cur))
    ∧ (cfg.blacklist ≠ [] →
      addModifiedByInfo (some cfg) ctx cur hd = Except.error JsErr.typeError) := by
  constructor
  · intro hbl
    simp [addModifiedByInfo, hbl, hctx, Except.map]
  · intro hbl
    match hb : cfg.blacklist with
    | [] => exact absurd hb hbl
    | a :: rest =>
      have hstep : jsSetProp cur a vUndef = Except.error JsErr.typeError :=
        jsSetProp_nontruthy cur hcur a vUndef
      simp [addModifiedByInfo, hb, hctx, applyBlacklist, List.foldlM, hstep, Except.map,
        bind, Except.bind]

/-- C5, witness for the amended theorem: the non-empty-blacklist branch at
the concrete no-actor environment. -/
theorem c5_no_actor_witness :
    truthy vUndef = false ∧ truthy vNull = false
    ∧ addModifiedByInfo (some ⟨"Mixed", "request:userInfo", ["password"]⟩) vUndef vNull []
        = Except.error JsErr.typeError :=
  ⟨rfl, rfl,
    (c5_no_actor ⟨"Mixed", "request:userInfo", ["password"]⟩ vUndef vNull [] rfl rfl).2
      (by simp)⟩

/-- C6, counterexample: applying the blacklist `["password"]` to the live
actor object fetched from the context mutates that object itself — after
record construction the context's actor has its `password` member set to
`undefined`, so it is not left unchanged. -/
theorem c6_counterexample :
    addModifiedByInfo (some ⟨"Mixed", "request:userInfo", ["password"]⟩)
        (vObj [("name", vStr "al"), ("password", vStr "x")]) vNull []
      = Except.ok ([("modifiedBy", vObj [("name", vStr "al"), ("password", vUndef)])],
          vObj [("name", vStr "al"), ("password", vUndef)], vNull)
    ∧ vObj [("name", vStr "al"), ("password", vUndef)]
        ≠ vObj [("name", vStr "al"), ("password", vStr "x")] := by
  refine ⟨rfl, ?_⟩
  simp

/-- C6 (amended): the blacklist is applied by assigning `undefined` into
the actor object itself, through the live reference: the actor embedded
in the record and the post-call context actor are the same stripped
object (so the live actor is mutated whenever stripping changes it). -/
theorem c6_blacklist_mutates_live_actor (cfg : ModifiedByCfg) (fs : JsObj) (cur : Value)
    (hd : JsObj) :
    addModifiedByInfo (some cfg) (vObj fs) cur hd
      = Except.ok (setF hd "modifiedBy" (vObj (strippedF cfg.blacklist fs)),
          vObj (strippedF cfg.blacklist fs), cur) := by
  match hb : cfg.blacklist with
  | [] => simp [addModifiedByInfo, hb, truthy, strippedF, Except.map]
  | a :: rest =>
    simp [addModifiedByInfo, hb, truthy, applyBlacklist_obj, Except.map, strippedF]

/-- C7, counterexample: the field `x` is present (truthy) in the original
document but entirely absent from the new document; the diff loop only
visits keys of the new document, so the diff-only update record's diff
does not map `x` to any deletion marker — it omits `x` altogether,
indistinguishable from "no change". -/
theorem c7_counterexample :
    truthy (getF [("_id", vNum 1), ("x", vStr "a")] "x") = true
    ∧ hasF [("_id", vNum 1)] "x" = false
    ∧ hasF (buildDiff defaultDiffAlgo [("_id", vNum 1)] [("_id", vNum 1), ("x", vStr "a")]) "x"
        = false
    ∧ persistedField (preSaveHook ⟨none, none, true, none, none, false, none, none⟩
        ⟨vUndef, vNull, 77⟩ ⟨[], 0⟩
        ⟨false, some [("_id", vNum 1), ("x", vStr "a")], [("_id", vNum 1)]⟩ "posts") "diff"
      = some (vObj [("_id", vNum 1), ("__v", vUndef)]) := ⟨rfl, rfl, rfl, rfl⟩

/-- C7 (amended): for every field other than `updatedAt` that is still
present as a key of the new document but with a falsy value, while truthy
in the original, the diff maps the field to the explicit `null` marker
(never the literal string `"null"`); fields missing from the new document
entirely are omitted from the diff. -/
theorem c7_deletion_marker (newDoc origDoc : JsObj) (k : String)
    (hnd : (keysOf newDoc).Nodup) (hk : k ∈ keysOf newDoc)
    (hko : truthy (getF origDoc k) = true) (hkn : truthy (getF newDoc k) = false)
    (hupd : k ≠ "updatedAt") :
    getF (buildDiff defaultDiffAlgo newDoc origDoc) k = vNull ∧ vNull ≠ vStr "null" := by
  have halgo : defaultDiffAlgo k (getF newDoc k) (getF origDoc k) = vStr "null" := by
    simp [defaultDiffAlgo, hupd, hko, hkn]
  constructor
  · unfold buildDiff
    rw [foldl_buildDiffStep_mem _ _ _ _ _ _ hnd hk]
    simp [halgo, truthy, resolveNullStr, beqV]
  · simp

/-- C7, witness for the amended theorem at a concrete truthy-to-falsy
field. -/
theorem c7_deletion_marker_witness :
    (keysOf [("_id", vNum 1), ("x", vStr "")]).Nodup
    ∧ ("x" : String) ∈ keysOf [("_id", vNum 1), ("x", vStr "")]
    ∧ truthy (getF [("_id", vNum 1), ("x", vStr "a")] "x") = true
    ∧ truthy (getF [("_id", vNum 1), ("x", vStr "")] "x") = false
    ∧ getF (buildDiff defaultDiffAlgo [("_id", vNum 1), ("x", vStr "")]
        [("_id", vNum 1), ("x", vStr "a")]) "x" = vNull :=
  ⟨by decide, by decide, rfl, rfl,
    (c7_deletion_marker [("_id", vNum 1), ("x", vStr "")] [("_id", vNum 1), ("x", vStr "a")]
      "x" (by decide) (by decide) rfl rfl (by decide)).1⟩

/-- C9: `docId` derivation of `createHistoryDoc`: the (sanitized)
document snapshot's `_id` is preferred, else the diff's `_id`; the field
is absent when neither resolves; the scalar id `"abc"` is stored as
`"abc"`, and a composite object id — whose default stringification would
be the generic `[object Object]` text — is stored as its JSON structural
string instead. -/
theorem c9_docid_resolution :
    chdField (createHistoryDoc ⟨none, none, false, none, none, false, none, none⟩
        ⟨vUndef, vNull, 9⟩ (vObj [("_id", vStr "abc")]) (vObj []) "u" "posts" none) "docId"
      = some (vStr "abc")
    ∧ chdField (createHistoryDoc ⟨none, none, false, none, none, false, none, none⟩
        ⟨vUndef, vNull, 9⟩ (vObj []) (vObj [("_id", vStr "abc")]) "u" "posts" none) "docId"
      = some (vStr "abc")
    ∧ chdHasField (createHistoryDoc ⟨none, none, false, none, none, false, none, none⟩
        ⟨vUndef, vNull, 9⟩ (vObj []) (vObj []) "u" "posts" none) "docId"
      = some false
    ∧ chdField (createHistoryDoc ⟨none, none, false, none, none, false, none, none⟩
        ⟨vUndef, vNull, 9⟩ (vObj [("_id", vStr "abc")]) (vObj [("_id", vStr "xyz")]) "u"
        "posts" none) "docId"
      = some (vStr "abc")
    ∧ jsToString (vObj [("in", vStr "5b")]) = "[object Object]"
    ∧ chdField (createHistoryDoc ⟨none, none, false, none, none, false, none, none⟩
        ⟨vUndef, vNull, 9⟩
        (vObj [("_id", vObj [(String.mk [dolC, 'i', 'n'], vStr "5b")])]) (vObj []) "u"
        "posts" none) "docId"
      = some (vStr "\x7b\"in\":\"5b\"\x7d") :=
  ⟨rfl, rfl, rfl, rfl, rfl, rfl⟩

/-- C10: the store-handle accessor is idempotent per history-collection
name: a repeated call for the same name (with any options) returns the
exact cached handle and leaves the cache unchanged; the first call for an
unseen name constructs the handle from the supplied options, appends it
to the cache and consumes one registration serial, while a call for a
cached name performs no registration at all. -/
theorem c10_store_cache (reg : Registry) (name : String) (o1 o2 : Options) :
    ((HistoryModel name o2 (HistoryModel name o1 reg).2).1 = (HistoryModel name o1 reg).1
      ∧ (HistoryModel name o2 (HistoryModel name o1 reg).2).2 = (HistoryModel name o1 reg).2)
    ∧ (lookupA reg.historyModels name = none →
        (HistoryModel name o1 reg).1
          = ⟨name, schemaObjectFor o1, o1.indexes.getD [], o1.historyConnection,
              reg.nextRegistrationId⟩
        ∧ (HistoryModel name o1 reg).2.historyModels
            = reg.historyModels ++ [(name, (HistoryModel name o1 reg).1)]
        ∧ (HistoryModel name o1 reg).2.nextRegistrationId = reg.nextRegistrationId + 1)
    ∧ (∀ h, lookupA reg.historyModels name = some h → HistoryModel name o1 reg = (h, reg)) := by
  have cached : ∀ (o : Options) (r : Registry) (h : ModelHandle),
      lookupA r.historyModels name = some h → HistoryModel name o r = (h, r) := by
    intro o r h hh
    simp [HistoryModel, hh]
  cases hl : lookupA reg.historyModels name with
  | some h =>
    have e1 : HistoryModel name o1 reg = (h, reg) := cached o1 reg h hl
    have e2 : HistoryModel name o2 (HistoryModel name o1 reg).2
        = ((HistoryModel name o1 reg).1, (HistoryModel name o1 reg).2) := by
      rw [e1]
      exact cached o2 reg h hl
    refine ⟨⟨by rw [e2], by rw [e2]⟩, ?_, ?_⟩
    · intro hn
      exact Option.noConfusion hn
    · intro h2 hh
      injection hh with hh2
      subst hh2
      exact e1
  | none =>
    have e1 : HistoryModel name o1 reg
        = (⟨name, schemaObjectFor o1, o1.indexes.getD [], o1.historyConnection,
            reg.nextRegistrationId⟩,
           ⟨reg.historyModels ++ [(name, ⟨name, schemaObjectFor o1, o1.indexes.getD [],
              o1.historyConnection, reg.nextRegistrationId⟩)],
            reg.nextRegistrationId + 1⟩) := by
      simp [HistoryModel, hl]
    have hl2 : lookupA (reg.historyModels ++ [(name, (⟨name, schemaObjectFor o1,
        o1.indexes.getD [], o1.historyConnection, reg.nextRegistrationId⟩ : ModelHandle))])
        name = some ⟨name, schemaObjectFor o1, o1.indexes.getD [], o1.historyConnection,
          reg.nextRegistrationId⟩ :=
      lookupA_append_of_notfound _ _ _ hl
    have e2 : HistoryModel name o2 (HistoryModel name o1 reg).2
        = ((HistoryModel name o1 reg).1, (HistoryModel name o1 reg).2) := by
      rw [e1]
      exact cached o2 _ _ hl2
    refine ⟨⟨by rw [e2], by rw [e2]⟩, ?_, ?_⟩
    · intro _
      refine ⟨by rw [e1], by rw [e1], by rw [e1]⟩
    · intro h2 hh
      exact Option.noConfusion hh

/-- C10, witness: a fresh cache, two calls with different options. -/
theorem c10_store_cache_witness :
    lookupA (Registry.mk [] 0).historyModels "posts_history" = none
    ∧ (HistoryModel "posts_history" ⟨none, none, true, none, none, false, none, none⟩
        (HistoryModel "posts_history" ⟨none, none, false, none, none, false, none, none⟩
          ⟨[], 0⟩).2).1
      = (HistoryModel "posts_history" ⟨none, none, false, none, none, false, none, none⟩
          ⟨[], 0⟩).1 :=
  ⟨rfl,
    (c10_store_cache ⟨[], 0⟩ "posts_history"
      ⟨none, none, false, none, none, false, none, none⟩
      ⟨none, none, true, none, none, false, none, none⟩).1.1⟩

theorem digitChar_facts (d : Nat) (hd : d ≤ 9) :
    isDigitC (digitChar d) = true ∧ (digitChar d).toNat = 48 + d
    ∧ digitChar d ≠ qC ∧ digitChar d ≠ bsC ∧ digitChar d ≠ apC ∧ digitChar d ≠ dolC
    ∧ digitChar d ≠ lbC ∧ digitChar d ≠ rbC ∧ digitChar d ≠ comC ∧ digitChar d ≠ colC := by
  interval_cases d <;> exact ⟨rfl, rfl, by decide, by decide, by decide, by decide,
    by decide, by decide, by decide, by decide⟩

theorem natToCharsAux_small (n : Nat) (h : n < 10) (fuel : Nat) (acc : List Char) :
    natToCharsAux fuel n acc = digitChar n :: acc := by
  cases fuel <;> simp [natToCharsAux, h]

theorem natToCharsAux_succ (f n : Nat) (acc : List Char) :
    natToCharsAux (f + 1) n acc =
      if n < 10 then digitChar n :: acc
      else natToCharsAux f (n / 10) (digitChar (n % 10) :: acc) := rfl

theorem natToCharsAux_shift (n : Nat) : ∀ (fuel : Nat) (acc : List Char), n ≤ fuel →
    natToCharsAux fuel n acc = natToChars n ++ acc := by
  induction n using Nat.strong_induction_on with
  | _ n ih =>
    intro fuel acc hle
    by_cases h10 : n < 10
    · rw [natToCharsAux_small n h10, natToChars, natToCharsAux_small n h10]
      rfl
    · have hdiv : n / 10 < n := Nat.div_lt_self (by omega) (by omega)
      cases fuel with
      | zero => omega
      | succ f =>
        rw [natToCharsAux_succ, if_neg h10, ih (n / 10) hdiv f _ (by omega)]
        cases n with
        | zero => omega
        | succ m =>
          conv_rhs => rw [natToChars, natToCharsAux_succ, if_neg h10]
          rw [ih ((m + 1) / 10) hdiv m [digitChar ((m + 1) % 10)] (by omega)]
          simp

theorem natToChars_eq_ge (n : Nat) (h : 10 ≤ n) :
    natToChars n = natToChars (n / 10) ++ [digitChar (n % 10)] := by
  have h1 : ¬n < 10 := by omega
  match hn : n, h with
  | Nat.succ m, _ =>
    rw [natToChars, natToCharsAux, if_neg (hn ▸ h1)]
    exact natToCharsAux_shift (Nat.succ m / 10) m [digitChar (Nat.succ m % 10)] (by omega)

theorem natToChars_all_digits (n : Nat) :
    ∀ c ∈ natToChars n, ∃ d, d ≤ 9 ∧ c = digitChar d := by
  induction n using Nat.strong_induction_on with
  | _ n ih =>
    intro c hc
    by_cases h10 : n < 10
    · rw [natToChars, natToCharsAux_small n h10] at hc
      simp at hc
      exact ⟨n, by omega, hc⟩
    · rw [natToChars_eq_ge n (by omega)] at hc
      rcases List.mem_append.mp hc with h | h
      · exact ih (n / 10) (Nat.div_lt_self (by omega) (by omega)) c h
      · simp at h
        exact ⟨n % 10, by omega, h⟩

theorem takeDigits_append (ds rest : List Char) (hds : ∀ c ∈ ds, isDigitC c = true)
    (hrest : ∀ c, rest.head? = some c → isDigitC c = false) :
    takeDigits (ds ++ rest) = (ds, rest) := by
  induction ds with
  | nil =>
    cases rest with
    | nil => rfl
    | cons r rs => simp [takeDigits, hrest r rfl]
  | cons c cs ih =>
    have hc : isDigitC c = true := hds c (List.mem_cons_self c cs)
    have hcs : ∀ x ∈ cs, isDigitC x = true := fun x hx => hds x (List.mem_cons_of_mem c hx)
    simp [takeDigits, hc, ih hcs]

theorem digitsToNat_append_singleton (ds : List Char) (c : Char) :
    digitsToNat (ds ++ [c]) = digitsToNat ds * 10 + (c.toNat - 48) := by
  simp [digitsToNat, List.foldl_append]

theorem digitsToNat_natToChars (n : Nat) : digitsToNat (natToChars n) = n := by
  induction n using Nat.strong_induction_on with
  | _ n ih =>
    by_cases h10 : n < 10
    · rw [natToChars, natToCharsAux_small n h10]
      have := (digitChar_facts n (by omega)).2.1
      simp [digitsToNat, this]
    · rw [natToChars_eq_ge n (by omega), digitsToNat_append_singleton,
        ih (n / 10) (Nat.div_lt_self (by omega) (by omega))]
      have := (digitChar_facts (n % 10) (by omega)).2.1
      rw [this]
      omega

theorem hasPat_of_not_mem (x y : Char) (s : List Char) (h : x ∉ s) :
    hasPat [x, y] s = false := by
  induction s with
  | nil => rfl
  | cons c rest ih =>
    have hx : ¬x = c := fun he => h (he ▸ List.mem_cons_self c rest)
    have hr : x ∉ rest := fun he => h (List.mem_cons_of_mem c he)
    simp [hasPat, List.isPrefixOf, beq_iff_eq, hx, ih hr]

theorem hasPat_glue (x y : Char) (a b : List Char) (ha : hasPat [x, y] a = false)
    (hb : hasPat [x, y] b = false) (hbh : ∀ c, b.head? = some c → c ≠ y) :
    hasPat [x, y] (a ++ b) = false := by
  induction a with
  | nil => simpa using hb
  | cons c rest ih =>
    simp [hasPat] at ha
    obtain ⟨ha1, ha2⟩ := ha
    have htail : hasPat [x, y] (rest ++ b) = false := ih ha2
    show (List.isPrefixOf [x, y] (c :: (rest ++ b)) || hasPat [x, y] (rest ++ b)) = false
    rw [htail, Bool.or_false]
    cases rest with
    | nil =>
      cases b with
      | nil => simp [List.isPrefixOf]
      | cons b0 bs =>
        have hb0 : b0 ≠ y := hbh b0 rfl
        simp [List.isPrefixOf, beq_iff_eq]
        intro _
        exact fun he => hb0 he.symm
    | cons d ds =>
      simp [List.isPrefixOf, beq_iff_eq] at ha1 ⊢
      intro hxc
      exact fun hyd => (ha1 hxc) hyd

theorem replaceFirst_of_noPat (s pat rep : List Char) (h : hasPat pat s = false) :
    replaceFirst s pat rep = s := by
  induction s with
  | nil => rfl
  | cons c rest ih =>
    simp [hasPat] at h
    obtain ⟨h1, h2⟩ := h
    show (if pat.isPrefixOf (c :: rest) then rep ++ (c :: rest).drop pat.length
      else c :: replaceFirst rest pat rep) = c :: rest
    rw [if_neg (by simp [h1]), ih h2]

theorem replaceFirst_cons (c : Char) (rest pat rep : List Char) :
    replaceFirst (c :: rest) pat rep =
      if pat.isPrefixOf (c :: rest) then rep ++ (c :: rest).drop pat.length
      else c :: replaceFirst rest pat rep := rfl

theorem replaceFirst_split (x y : Char) (hxy : x ≠ y) (A B rep : List Char)
    (h : hasPat [x, y] (A ++ [x]) = false) :
    replaceFirst (A ++ [x, y] ++ B) [x, y] rep = A ++ (rep ++ B) := by
  induction A with
  | nil =>
    show replaceFirst (([] ++ [x, y]) ++ B) [x, y] rep = [] ++ (rep ++ B)
    have hpre : List.isPrefixOf [x, y] (x :: y :: B) = true := by
      simp [List.isPrefixOf]
    simp only [List.nil_append, List.cons_append]
    rw [replaceFirst_cons, hpre]
    simp
  | cons c rest ih =>
    simp [hasPat] at h
    obtain ⟨h1, h2⟩ := h
    have hpre : List.isPrefixOf [x, y] (c :: (rest ++ [x, y] ++ B)) = false := by
      cases rest with
      | nil =>
        simp only [List.nil_append, List.cons_append]
        simp [List.isPrefixOf, beq_iff_eq]
        intro hxc hyx
        exact hxy hyx.symm
      | cons d ds =>
        simp only [List.cons_append] at h1 ⊢
        simp [List.isPrefixOf, beq_iff_eq] at h1 ⊢
        intro hxc hyd
        exact (h1 hxc) hyd
    calc replaceFirst ((c :: rest) ++ [x, y] ++ B) [x, y] rep
        = replaceFirst (c :: (rest ++ [x, y] ++ B)) [x, y] rep := by simp
      _ = c :: replaceFirst (rest ++ [x, y] ++ B) [x, y] rep := by
            rw [replaceFirst_cons, hpre]
            simp
      _ = c :: (rest ++ (rep ++ B)) := by rw [ih h2]
      _ = (c :: rest) ++ (rep ++ B) := by simp

theorem head?_mem {α : Type} (l : List α) (c : α) (h : l.head? = some c) : c ∈ l := by
  cases l with
  | nil => simp at h
  | cons a rest =>
    simp at h
    exact h ▸ List.mem_cons_self a rest

theorem cleanChars_split (c : Char) (cs : List Char) (h : cleanChars (c :: cs) = true) :
    (¬c = qC ∧ ¬c = bsC ∧ ¬c = apC) ∧ cleanChars cs = true := by
  simp [cleanChars] at h ⊢
  tauto

theorem cleanChars_not_memQ (cs : List Char) (h : cleanChars cs = true) : qC ∉ cs := by
  intro hm
  simp [cleanChars] at h
  exact (h qC hm).1.1 rfl

theorem cleanChars_not_memA (cs : List Char) (h : cleanChars cs = true) : apC ∉ cs := by
  intro hm
  simp [cleanChars] at h
  exact (h apC hm).2 rfl

theorem escChars_clean (cs : List Char) (h : cleanChars cs = true) : escChars cs = cs := by
  induction cs with
  | nil => rfl
  | cons c rest ih =>
    obtain ⟨⟨hq, hb, _⟩, hrest⟩ := cleanChars_split c rest h
    show escChar c ++ escChars rest = c :: rest
    rw [escChar, if_neg (by simp [hq, hb]), ih hrest]
    rfl

theorem dateChars_facts (t : Nat) :
    (∀ c ∈ dateChars t, ¬c = qC ∧ ¬c = bsC ∧ ¬c = apC ∧ ¬c = dolC)
    ∧ noDollarHead (dateChars t) = true := by
  constructor
  · intro c hc
    simp [dateChars] at hc
    rcases hc with h | h | h | h | h | h
    · subst h; exact ⟨by decide, by decide, by decide, by decide⟩
    · subst h; exact ⟨by decide, by decide, by decide, by decide⟩
    · subst h; exact ⟨by decide, by decide, by decide, by decide⟩
    · subst h; exact ⟨by decide, by decide, by decide, by decide⟩
    · subst h; exact ⟨by decide, by decide, by decide, by decide⟩
    · obtain ⟨d, hd, rfl⟩ := natToChars_all_digits t c h
      obtain ⟨_, _, f1, f2, f3, f4, _⟩ := digitChar_facts d hd
      exact ⟨f1, f2, f3, f4⟩
  · simp [dateChars, noDollarHead]
    decide

theorem natToChars_charfacts (n : Nat) :
    (∀ c ∈ natToChars n, ¬c = qC ∧ ¬c = bsC ∧ ¬c = apC ∧ ¬c = dolC ∧ isDigitC c = true) := by
  intro c hc
  obtain ⟨d, hd, rfl⟩ := natToChars_all_digits n c hc
  obtain ⟨g0, _, g1, g2, g3, g4, _⟩ := digitChar_facts d hd
  exact ⟨g1, g2, g3, g4, g0⟩

/-- A quoted literal (string or date body) with clean contents contains
no quote-dollar pattern, starts with a quote, and holds no apostrophe. -/
theorem noPat_quoted (content : List Char) (hnq : qC ∉ content)
    (hnd : noDollarHead content = true) (hna : apC ∉ content) :
    hasPat [qC, dolC] (qC :: (content ++ [qC])) = false
    ∧ (qC :: (content ++ [qC])).head? = some qC
    ∧ apC ∉ qC :: (content ++ [qC]) := by
  refine ⟨?_, rfl, ?_⟩
  · show (List.isPrefixOf [qC, dolC] (qC :: (content ++ [qC]))
      || hasPat [qC, dolC] (content ++ [qC])) = false
    have h2 : hasPat [qC, dolC] (content ++ [qC]) = false := by
      refine hasPat_glue _ _ _ _ (hasPat_of_not_mem _ _ _ hnq) (by decide) ?_
      intro c hc
      simp at hc
      subst hc
      decide
    rw [h2, Bool.or_false]
    cases content with
    | nil => decide
    | cons c0 cs =>
      simp [noDollarHead] at hnd
      simp [List.isPrefixOf, beq_iff_eq]
      intro hd0
      exact absurd hd0.symm hnd
  · simp
    exact ⟨by decide, hna, by decide⟩

theorem joinComma_cons₂ (a b : List Char) (r : List (List Char)) :
    joinComma (a :: b :: r) = a ++ comC :: joinComma (b :: r) := rfl

theorem noPat_join (es : List (List Char))
    (h : ∀ e ∈ es, hasPat [qC, dolC] e = false ∧ e.head? = some qC ∧ apC ∉ e) :
    hasPat [qC, dolC] (joinComma es) = false ∧ apC ∉ joinComma es
    ∧ (∀ c, (joinComma es).head? = some c → ¬c = dolC) := by
  induction es with
  | nil => exact ⟨rfl, by simp [joinComma], by simp [joinComma]⟩
  | cons e rest ih =>
    cases rest with
    | nil =>
      obtain ⟨h1, h2, h3⟩ := h e (List.mem_cons_self e [])
      refine ⟨h1, h3, ?_⟩
      intro c hc
      rw [show joinComma [e] = e from rfl] at hc
      rw [h2] at hc
      injection hc with hc
      subst hc
      decide
    | cons e2 rest2 =>
      have hrest : ∀ x ∈ e2 :: rest2, hasPat [qC, dolC] x = false ∧ x.head? = some qC
          ∧ apC ∉ x := fun x hx => h x (List.mem_cons_of_mem e hx)
      obtain ⟨ih1, ih2, ih3⟩ := ih hrest
      obtain ⟨h1, h2, h3⟩ := h e (List.mem_cons_self e (e2 :: rest2))
      rw [joinComma_cons₂]
      have hcomma : hasPat [qC, dolC] (comC :: joinComma (e2 :: rest2)) = false := by
        show (List.isPrefixOf [qC, dolC] (comC :: joinComma (e2 :: rest2))
          || hasPat [qC, dolC] (joinComma (e2 :: rest2))) = false
        rw [ih1, Bool.or_false]
        simp [List.isPrefixOf, beq_iff_eq]
        intro hq
        exact absurd hq.symm (by decide)
      refine ⟨?_, ?_, ?_⟩
      · refine hasPat_glue _ _ _ _ h1 hcomma ?_
        intro c hc
        simp at hc
        subst hc
        decide
      · simp
        exact ⟨h3, by decide, ih2⟩
      · intro c hc
        cases e with
        | nil =>
          simp at h2
        | cons a as =>
          simp at hc h2
          subst hc
          rw [h2]
          decide

/-- A serialized `"key":value` member with a clean key and a pattern-free
serialized value is itself pattern-free, quote-headed and
apostrophe-free. -/
theorem noPat_entry (kcs sv : List Char) (hkc : cleanChars kcs = true)
    (hkd : noDollarHead kcs = true) (hsv : hasPat [qC, dolC] sv = false)
    (hsa : apC ∉ sv) :
    hasPat [qC, dolC] (qC :: (kcs ++ [qC, colC] ++ sv)) = false
    ∧ (qC :: (kcs ++ [qC, colC] ++ sv)).head? = some qC
    ∧ apC ∉ qC :: (kcs ++ [qC, colC] ++ sv) := by
  have hmid : hasPat [qC, dolC] ([qC, colC] ++ sv) = false := by
    show (List.isPrefixOf [qC, dolC] (qC :: colC :: sv)
      || hasPat [qC, dolC] (colC :: sv)) = false
    have h1 : hasPat [qC, dolC] (colC :: sv) = false := by
      show (List.isPrefixOf [qC, dolC] (colC :: sv) || hasPat [qC, dolC] sv) = false
      rw [hsv, Bool.or_false]
      simp [List.isPrefixOf, beq_iff_eq]
      intro hq
      exact absurd hq.symm (by decide)
    rw [h1, Bool.or_false]
    simp [List.isPrefixOf, beq_iff_eq]
    decide
  have hY : hasPat [qC, dolC] (kcs ++ ([qC, colC] ++ sv)) = false := by
    refine hasPat_glue _ _ _ _ (hasPat_of_not_mem _ _ _ (cleanChars_not_memQ kcs hkc))
      hmid ?_
    intro c hc
    simp at hc
    subst hc
    decide
  refine ⟨?_, rfl, ?_⟩
  · show (List.isPrefixOf [qC, dolC] (qC :: (kcs ++ [qC, colC] ++ sv))
      || hasPat [qC, dolC] (kcs ++ [qC, colC] ++ sv)) = false
    rw [show kcs ++ [qC, colC] ++ sv = kcs ++ ([qC, colC] ++ sv) by simp, hY,
      Bool.or_false]
    cases kcs with
    | nil =>
      simp [List.isPrefixOf, beq_iff_eq]
      decide
    | cons c0 cs =>
      simp [noDollarHead] at hkd
      simp [List.isPrefixOf, beq_iff_eq]
      intro hd
      exact hkd hd.symm
  · simp
    exact ⟨by decide, cleanChars_not_memA kcs hkc, by decide, by decide, hsa⟩

/-- A serialized object literal over pattern-free quote-headed members is
pattern-free, brace-headed and apostrophe-free. -/
theorem noPat_objlit (es : List (List Char))
    (h : ∀ e ∈ es, hasPat [qC, dolC] e = false ∧ e.head? = some qC ∧ apC ∉ e) :
    hasPat [qC, dolC] (lbC :: (joinComma es ++ [rbC])) = false
    ∧ (lbC :: (joinComma es ++ [rbC])).head? ≠ some dolC
    ∧ apC ∉ lbC :: (joinComma es ++ [rbC]) := by
  obtain ⟨j1, j2, _⟩ := noPat_join es h
  refine ⟨?_, by simp; decide, ?_⟩
  · show (List.isPrefixOf [qC, dolC] (lbC :: (joinComma es ++ [rbC]))
      || hasPat [qC, dolC] (joinComma es ++ [rbC])) = false
    have hX : hasPat [qC, dolC] (joinComma es ++ [rbC]) = false := by
      refine hasPat_glue _ _ _ _ j1 (by decide) ?_
      intro c hc
      simp at hc
      subst hc
      decide
    rw [hX, Bool.or_false]
    simp [List.isPrefixOf, beq_iff_eq]
    intro hq
    exact absurd hq.symm (by decide)
  · simp
    exact ⟨by decide, j2, by decide⟩

mutual

/-- Clean values serialize to pattern-free, non-dollar-headed,
apostrophe-free text. -/
theorem noPat_stringify : (v : Value) → cleanV v = true → ∀ sv, stringifyVal v = some sv →
    hasPat [qC, dolC] sv = false ∧ (∀ c, sv.head? = some c → ¬c = dolC) ∧ apC ∉ sv
  | vNull, _, sv, hsv => by
    simp [stringifyVal] at hsv
    subst hsv
    refine ⟨by decide, ?_, by decide⟩
    intro c hc
    injection hc with hc
    subst hc
    decide
  | vUndef, _, sv, hsv => by
    simp [stringifyVal] at hsv
  | vBool true, _, sv, hsv => by
    simp [stringifyVal] at hsv
    subst hsv
    refine ⟨by decide, ?_, by decide⟩
    intro c hc
    injection hc with hc
    subst hc
    decide
  | vBool false, _, sv, hsv => by
    simp [stringifyVal] at hsv
    subst hsv
    refine ⟨by decide, ?_, by decide⟩
    intro c hc
    injection hc with hc
    subst hc
    decide
  | vNum n, _, sv, hsv => by
    simp [stringifyVal] at hsv
    subst hsv
    refine ⟨hasPat_of_not_mem _ _ _ ?_, ?_, ?_⟩
    · exact fun hm => (natToChars_charfacts n qC hm).1 rfl
    · intro c hc
      have := head?_mem _ _ hc
      exact fun hd => (natToChars_charfacts n c this).2.2.2.1 hd
    · exact fun hm => (natToChars_charfacts n apC hm).2.2.1 rfl
  | vStr s, hcl, sv, hsv => by
    simp [cleanV] at hcl
    simp [stringifyVal] at hsv
    rw [escChars_clean s.data hcl.1] at hsv
    subst hsv
    obtain ⟨p1, p2, p3⟩ := noPat_quoted s.data (cleanChars_not_memQ _ hcl.1) hcl.2
      (cleanChars_not_memA _ hcl.1)
    refine ⟨p1, ?_, p3⟩
    intro c hc
    rw [p2] at hc
    injection hc with hc
    subst hc
    decide
  | vDate t, _, sv, hsv => by
    simp [stringifyVal] at hsv
    subst hsv
    obtain ⟨df, dh⟩ := dateChars_facts t
    obtain ⟨p1, p2, p3⟩ := noPat_quoted (dateChars t)
      (fun hm => (df qC hm).1 rfl) dh (fun hm => (df apC hm).2.2.1 rfl)
    refine ⟨p1, ?_, p3⟩
    intro c hc
    rw [p2] at hc
    injection hc with hc
    subst hc
    decide
  | vObj fs, hcl, sv, hsv => by
    simp [cleanV] at hcl
    simp [stringifyVal] at hsv
    subst hsv
    obtain ⟨p1, p2, p3⟩ := noPat_objlit (stringifyEntries fs) (noPat_entries fs hcl)
    refine ⟨p1, ?_, p3⟩
    intro c hc hd
    subst hd
    exact p2 hc

/-- Clean field lists serialize to pattern-free, quote-headed,
apostrophe-free members. -/
theorem noPat_entries : (fs : List (String × Value)) → cleanF fs = true →
    ∀ e ∈ stringifyEntries fs,
      hasPat [qC, dolC] e = false ∧ e.head? = some qC ∧ apC ∉ e
  | [], _, e, he => by
    simp [stringifyEntries] at he
  | (k, v) :: rest, hcl, e, he => by
    rw [show cleanF ((k, v) :: rest) = (cleanChars k.data && noDollarHead k.data
      && cleanV v && !hasF rest k && cleanF rest) from rfl] at hcl
    simp only [Bool.and_eq_true] at hcl
    obtain ⟨⟨⟨⟨hk1, hk2⟩, hv⟩, _⟩, hrest⟩ := hcl
    cases hv0 : stringifyVal v with
    | none =>
      rw [show stringifyEntries ((k, v) :: rest) = stringifyEntries rest by
        simp [stringifyEntries, hv0]] at he
      exact noPat_entries rest hrest e he
    | some sv =>
      rw [show stringifyEntries ((k, v) :: rest)
          = (qC :: (escChars k.data ++ [qC, colC] ++ sv)) :: stringifyEntries rest by
        simp [stringifyEntries, hv0]] at he
      rcases List.mem_cons.mp he with hee | hee
      · subst hee
        rw [escChars_clean k.data hk1]
        obtain ⟨s1, _, s3⟩ := noPat_stringify v hv sv hv0
        exact noPat_entry k.data sv hk1 hk2 s1 s3
      · exact noPat_entries rest hrest e hee

end

theorem parseStrChars_clean (content : List Char) (rest : List Char)
    (hq : qC ∉ content) (hb : bsC ∉ content) :
    parseStrChars (content ++ (qC :: rest)) = some (content, rest) := by
  show parseStrCharsAux false (content ++ (qC :: rest)) = some (content, rest)
  induction content with
  | nil => rfl
  | cons c cs ih =>
    have hcq : ¬c = qC := fun he => hq (he ▸ List.mem_cons_self c cs)
    have hcb : ¬c = bsC := fun he => hb (he ▸ List.mem_cons_self c cs)
    have hq2 : qC ∉ cs := fun hm => hq (List.mem_cons_of_mem c hm)
    have hb2 : bsC ∉ cs := fun hm => hb (List.mem_cons_of_mem c hm)
    show parseStrCharsAux false (c :: (cs ++ qC :: rest)) = some (c :: cs, rest)
    rw [show parseStrCharsAux false (c :: (cs ++ qC :: rest))
      = (if false then (parseStrCharsAux false (cs ++ qC :: rest)).map
            (fun p => (c :: p.1, p.2))
        else if c = qC then some ([], cs ++ qC :: rest)
        else if c = bsC then parseStrCharsAux true (cs ++ qC :: rest)
        else (parseStrCharsAux false (cs ++ qC :: rest)).map
            (fun p => (c :: p.1, p.2))) from rfl]
    rw [if_neg (by simp), if_neg hcq, if_neg hcb, ih hq2 hb2]
    rfl

theorem stringifyVal_eq_none (v : Value) (h : stringifyVal v = none) : v = vUndef := by
  cases v with
  | vUndef => rfl
  | vNull => simp [stringifyVal] at h
  | vBool b => cases b <;> simp [stringifyVal] at h
  | vNum n => simp [stringifyVal] at h
  | vStr s => simp [stringifyVal] at h
  | vDate t => simp [stringifyVal] at h
  | vObj fs => simp [stringifyVal] at h

theorem stringifyVal_of_ne_undef (v : Value) (h : v ≠ vUndef) :
    ∃ sv, stringifyVal v = some sv := by
  cases v with
  | vUndef => exact absurd rfl h
  | vNull => exact ⟨_, rfl⟩
  | vBool b => cases b <;> exact ⟨_, rfl⟩
  | vNum n => exact ⟨_, rfl⟩
  | vStr s => exact ⟨_, rfl⟩
  | vDate t => exact ⟨_, rfl⟩
  | vObj fs => exact ⟨_, rfl⟩

theorem normV_ne_undef (v : Value) (h : v ≠ vUndef) : normV v ≠ vUndef := by
  cases v <;> simp [normV]
  exact absurd rfl h

theorem normF_nil_of_entries_nil : (fs : List (String × Value)) →
    stringifyEntries fs = [] → normF fs = []
  | [], _ => rfl
  | (k, v) :: rest, h => by
    cases hv : stringifyVal v with
    | none =>
      have hvu : v = vUndef := stringifyVal_eq_none v hv
      subst hvu
      rw [show stringifyEntries ((k, vUndef) :: rest) = stringifyEntries rest from rfl] at h
      rw [show normF ((k, vUndef) :: rest) = normF rest from rfl]
      exact normF_nil_of_entries_nil rest h
    | some sv =>
      rw [show stringifyEntries ((k, v) :: rest)
        = (qC :: (escChars k.data ++ [qC, colC] ++ sv)) :: stringifyEntries rest by
          simp [stringifyEntries, hv]] at h
      exact absurd h (List.cons_ne_nil _ _)

mutual

theorem normV_idem : (v : Value) → normV (normV v) = normV v
  | vNull => rfl
  | vUndef => rfl
  | vBool _ => rfl
  | vNum _ => rfl
  | vStr _ => rfl
  | vDate _ => rfl
  | vObj fs => by
    show vObj (normF (normF fs)) = vObj (normF fs)
    rw [normF_idem fs]

theorem normF_idem : (fs : List (String × Value)) → normF (normF fs) = normF fs
  | [] => rfl
  | (k, v) :: rest => by
    cases v with
    | vUndef =>
      show normF (normF rest) = normF rest
      exact normF_idem rest
    | vNull =>
      show (k, vNull) :: normF (normF rest) = (k, vNull) :: normF rest
      rw [normF_idem rest]
    | vBool b =>
      show (k, vBool b) :: normF (normF rest) = (k, vBool b) :: normF rest
      rw [normF_idem rest]
    | vNum n =>
      show (k, vNum n) :: normF (normF rest) = (k, vNum n) :: normF rest
      rw [normF_idem rest]
    | vStr s =>
      show (k, vStr s) :: normF (normF rest) = (k, vStr s) :: normF rest
      rw [normF_idem rest]
    | vDate t =>
      show (k, vStr (String.mk (dateChars t))) :: normF (normF rest)
        = (k, vStr (String.mk (dateChars t))) :: normF rest
      rw [normF_idem rest]
    | vObj gs =>
      show (k, vObj (normF (normF gs))) :: normF (normF rest)
        = (k, vObj (normF gs)) :: normF rest
      rw [normF_idem rest, normF_idem gs]

end

theorem hasF_normF (fs : List (String × Value)) (k : String)
    (h : hasF fs k = false) : hasF (normF fs) k = false := by
  induction fs with
  | nil => rfl
  | cons p rest ih =>
    obtain ⟨pk, pv⟩ := p
    simp [hasF] at h
    cases pv with
    | vUndef => exact ih h.2
    | vNull => simp [normF, hasF, h.1, ih h.2]
    | vBool b => simp [normF, hasF, h.1, ih h.2]
    | vNum n => simp [normF, hasF, h.1, ih h.2]
    | vStr s => simp [normF, hasF, h.1, ih h.2]
    | vDate t => simp [normF, hasF, h.1, ih h.2]
    | vObj gs => simp [normF, hasF, h.1, ih h.2]

mutual

theorem cleanV_normV : (v : Value) → cleanV v = true → cleanV (normV v) = true
  | vNull, _ => rfl
  | vUndef, _ => rfl
  | vBool _, _ => rfl
  | vNum _, _ => rfl
  | vStr s, h => h
  | vDate t, _ => by
    show (cleanChars (String.mk (dateChars t)).data
      && noDollarHead (String.mk (dateChars t)).data) = true
    obtain ⟨df, dh⟩ := dateChars_facts t
    have h1 : cleanChars (dateChars t) = true := by
      simp [cleanChars]
      intro c hc
      obtain ⟨f1, f2, f3, _⟩ := df c hc
      exact ⟨⟨f1, f2⟩, f3⟩
    show (cleanChars (dateChars t) && noDollarHead (dateChars t)) = true
    rw [h1, dh]
    rfl
  | vObj fs, h => by
    show cleanF (normF fs) = true
    exact cleanF_normF fs h

theorem cleanF_normF : (fs : List (String × Value)) → cleanF fs = true →
    cleanF (normF fs) = true
  | [], _ => rfl
  | (k, v) :: rest, h => by
    rw [show cleanF ((k, v) :: rest) = (cleanChars k.data && noDollarHead k.data
      && cleanV v && !hasF rest k && cleanF rest) from rfl] at h
    simp only [Bool.and_eq_true] at h
    obtain ⟨⟨⟨⟨hk1, hk2⟩, hv⟩, hnf⟩, hrest⟩ := h
    have hnf2 : hasF (normF rest) k = false := by
      simp only [Bool.not_eq_true'] at hnf
      exact hasF_normF rest k hnf
    have hcv : cleanV (normV v) = true := cleanV_normV v hv
    have hcr : cleanF (normF rest) = true := cleanF_normF rest hrest
    cases v with
    | vUndef => exact hcr
    | vNull =>
      show cleanF ((k, vNull) :: normF rest) = true
      simp [cleanF, hk1, hk2, hnf2, hcr, cleanV]
    | vBool b =>
      show cleanF ((k, vBool b) :: normF rest) = true
      simp [cleanF, hk1, hk2, hnf2, hcr, cleanV]
    | vNum n =>
      show cleanF ((k, vNum n) :: normF rest) = true
      simp [cleanF, hk1, hk2, hnf2, hcr, cleanV]
    | vStr s =>
      show cleanF ((k, vStr s) :: normF rest) = true
      simp [cleanF, hk1, hk2, hnf2, hcr]
      simp [cleanV, normV] at hcv ⊢
      exact hcv
    | vDate t =>
      show cleanF ((k, normV (vDate t)) :: normF rest) = true
      simp [cleanF, hk1, hk2, hnf2, hcr]
      simp [cleanV, normV] at hcv ⊢
      exact hcv
    | vObj gs =>
      show cleanF ((k, vObj (normF gs)) :: normF rest) = true
      simp [cleanF, hk1, hk2, hnf2, hcr]
      simp [cleanV, normV] at hcv ⊢
      exact hcv

end

theorem natToChars_ne_nil (n : Nat) : natToChars n ≠ [] := by
  by_cases h10 : n < 10
  · rw [natToChars, natToCharsAux_small n h10]
    exact List.cons_ne_nil _ _
  · rw [natToChars_eq_ge n (by omega)]
    simp

mutual

theorem depth_le_stringify : (v : Value) → ∀ sv, stringifyVal v = some sv →
    depthV (normV v) ≤ sv.length
  | vNull, sv, h => by
    simp [stringifyVal] at h
    subst h
    simp [normV, depthV]
  | vUndef, sv, h => by simp [stringifyVal] at h
  | vBool true, sv, h => by
    simp [stringifyVal] at h
    subst h
    simp [normV, depthV]
  | vBool false, sv, h => by
    simp [stringifyVal] at h
    subst h
    simp [normV, depthV]
  | vNum n, sv, h => by
    simp [stringifyVal] at h
    subst h
    have := natToChars_ne_nil n
    simp [normV, depthV]
    cases hn : natToChars n with
    | nil => exact absurd hn this
    | cons a as => simp [hn]
      -- length ≥ 1
  | vStr s, sv, h => by
    simp [stringifyVal] at h
    subst h
    simp [normV, depthV]
  | vDate t, sv, h => by
    simp [stringifyVal] at h
    subst h
    simp [normV, depthV]
  | vObj fs, sv, h => by
    simp [stringifyVal] at h
    subst h
    show depthF (normF fs) + 1 ≤ _
    have := depthF_le_join fs
    simp
    omega

theorem depthF_le_join : (fs : List (String × Value)) →
    depthF (normF fs) ≤ (joinComma (stringifyEntries fs)).length + 1
  | [] => by simp [normF, depthF]
  | (k, v) :: rest => by
    cases hv : stringifyVal v with
    | none =>
      have hvu : v = vUndef := stringifyVal_eq_none v hv
      subst hvu
      show depthF (normF rest) ≤ _
      exact depthF_le_join rest
    | some sv =>
      have hvne : v ≠ vUndef := by
        intro he
        subst he
        simp [stringifyVal] at hv
      have hd1 : depthV (normV v) ≤ sv.length := depth_le_stringify v sv hv
      have hent : stringifyEntries ((k, v) :: rest)
          = (qC :: (escChars k.data ++ [qC, colC] ++ sv)) :: stringifyEntries rest := by
        simp [stringifyEntries, hv]
      have hnv : normF ((k, v) :: rest) = (k, normV v) :: normF rest := by
        cases v <;> first | exact absurd rfl hvne | rfl
      rw [hent, hnv]
      show max (depthV (normV v)) (depthF (normF rest)) + 1 ≤ _
      cases hre : stringifyEntries rest with
      | nil =>
        have hnr : normF rest = [] := normF_nil_of_entries_nil rest hre
        rw [hnr]
        show max (depthV (normV v)) 0 + 1 ≤ _
        simp [joinComma]
        omega
      | cons e2 es2 =>
        have hd2 := depthF_le_join rest
        rw [hre] at hd2
        rw [joinComma_cons₂]
        simp
        omega

end

theorem parseVal_cons (g : Nat) (c : Char) (rest : List Char) :
    parseVal (g + 1) (c :: rest) =
      if c = qC then (parseStrChars rest).map (fun p => (vStr (String.mk p.1), p.2))
      else if c = lbC then
        match rest.head? with
        | none => none
        | some c2 =>
          if c2 = rbC then some (vObj [], rest.tail)
          else (parseMembers g [] rest).map (fun p => (vObj p.1, p.2))
      else if isDigitC c then
        some (vNum (digitsToNat (takeDigits (c :: rest)).1), (takeDigits (c :: rest)).2)
      else if ['n', 'u', 'l', 'l'].isPrefixOf (c :: rest) then
        some (vNull, (c :: rest).drop 4)
      else if ['t', 'r', 'u', 'e'].isPrefixOf (c :: rest) then
        some (vBool true, (c :: rest).drop 4)
      else if ['f', 'a', 'l', 's', 'e'].isPrefixOf (c :: rest) then
        some (vBool false, (c :: rest).drop 5)
      else none := rfl

theorem parseMembers_cons (g : Nat) (acc : JsObj) (c : Char) (rest : List Char) :
    parseMembers (g + 1) acc (c :: rest) =
      (if c = qC then
        match parseStrChars rest with
        | none => none
        | some (kcs, r1) =>
          match r1 with
          | [] => none
          | c2 :: r2 =>
            if c2 = colC then
              match parseVal g r2 with
              | none => none
              | some (v, r3) =>
                match r3 with
                | [] => none
                | c3 :: r4 =>
                  if c3 = comC then parseMembers g (setF acc (String.mk kcs) v) r4
                  else if c3 = rbC then some (setF acc (String.mk kcs) v, r4)
                  else none
            else none
      else none) := rfl

theorem isPrefixOf_self_append (p s : List Char) : List.isPrefixOf p (p ++ s) = true := by
  induction p with
  | nil => cases s <;> rfl
  | cons a as ih => simp [List.isPrefixOf, ih]

theorem isPrefixOf_head_ne (a b : Char) (as bs : List Char) (h : ¬a = b) :
    List.isPrefixOf (a :: as) (b :: bs) = false := by
  simp [List.isPrefixOf, beq_iff_eq, h]

theorem setF_append (acc : JsObj) (k : String) (v : Value) (h : hasF acc k = false) :
    setF acc k v = acc ++ [(k, v)] := by
  induction acc with
  | nil => rfl
  | cons p rest ih =>
    obtain ⟨pk, pv⟩ := p
    simp [hasF] at h
    simp [setF, h.1, ih h.2]

theorem depthV_pos (v : Value) : 1 ≤ depthV v := by
  cases v <;> simp [depthV]

theorem cleanChars_not_memB (cs : List Char) (h : cleanChars cs = true) : bsC ∉ cs := by
  intro hm
  simp [cleanChars] at h
  exact (h bsC hm).1.2 rfl

theorem hasF_append (a b : JsObj) (k : String) :
    hasF (a ++ b) k = (hasF a k || hasF b k) := by
  induction a with
  | nil => simp [hasF]
  | cons p rest ih =>
    obtain ⟨pk, pv⟩ := p
    simp [hasF, ih, Bool.or_assoc]

mutual

/-- Round trip: parsing the serialization of a clean value yields its
JSON normalization and consumes exactly the serialized text. -/
theorem roundtripV : (v : Value) → cleanV v = true → ∀ sv, stringifyVal v = some sv →
    ∀ (g : Nat) (rest : List Char), depthV (normV v) ≤ g + 1 →
    (∀ c, rest.head? = some c → isDigitC c = false) →
    parseVal (g + 1) (sv ++ rest) = some (normV v, rest)
  | vNull, _, sv, hsv => by
    simp [stringifyVal] at hsv
    subst hsv
    intro g rest _ _
    show parseVal (g + 1) ('n' :: 'u' :: 'l' :: 'l' :: rest) = some (normV vNull, rest)
    have hp : List.isPrefixOf ['n', 'u', 'l', 'l'] ('n' :: 'u' :: 'l' :: 'l' :: rest)
        = true := isPrefixOf_self_append ['n', 'u', 'l', 'l'] rest
    rw [parseVal_cons, if_neg (show ¬(('n' : Char) = qC) by decide),
      if_neg (show ¬(('n' : Char) = lbC) by decide),
      if_neg (show ¬(isDigitC 'n' = true) by decide), if_pos hp]
    rfl
  | vUndef, _, sv, hsv => by simp [stringifyVal] at hsv
  | vBool true, _, sv, hsv => by
    simp [stringifyVal] at hsv
    subst hsv
    intro g rest _ _
    show parseVal (g + 1) ('t' :: 'r' :: 'u' :: 'e' :: rest) = some (normV (vBool true), rest)
    have hp : List.isPrefixOf ['t', 'r', 'u', 'e'] ('t' :: 'r' :: 'u' :: 'e' :: rest)
        = true := isPrefixOf_self_append ['t', 'r', 'u', 'e'] rest
    rw [parseVal_cons, if_neg (show ¬(('t' : Char) = qC) by decide),
      if_neg (show ¬(('t' : Char) = lbC) by decide),
      if_neg (show ¬(isDigitC 't' = true) by decide),
      if_neg (show ¬(List.isPrefixOf ['n', 'u', 'l', 'l'] ('t' :: 'r' :: 'u' :: 'e' :: rest)
        = true) from by rw [isPrefixOf_head_ne _ _ _ _ (by decide)]; simp), if_pos hp]
    rfl
  | vBool false, _, sv, hsv => by
    simp [stringifyVal] at hsv
    subst hsv
    intro g rest _ _
    show parseVal (g + 1) ('f' :: 'a' :: 'l' :: 's' :: 'e' :: rest)
      = some (normV (vBool false), rest)
    have hp : List.isPrefixOf ['f', 'a', 'l', 's', 'e']
        ('f' :: 'a' :: 'l' :: 's' :: 'e' :: rest) = true :=
      isPrefixOf_self_append ['f', 'a', 'l', 's', 'e'] rest
    rw [parseVal_cons, if_neg (show ¬(('f' : Char) = qC) by decide),
      if_neg (show ¬(('f' : Char) = lbC) by decide),
      if_neg (show ¬(isDigitC 'f' = true) by decide),
      if_neg (show ¬(List.isPrefixOf ['n', 'u', 'l', 'l']
        ('f' :: 'a' :: 'l' :: 's' :: 'e' :: rest) = true) from by
          rw [isPrefixOf_head_ne _ _ _ _ (by decide)]; simp),
      if_neg (show ¬(List.isPrefixOf ['t', 'r', 'u', 'e']
        ('f' :: 'a' :: 'l' :: 's' :: 'e' :: rest) = true) from by
          rw [isPrefixOf_head_ne _ _ _ _ (by decide)]; simp), if_pos hp]
    rfl
  | vNum n, _, sv, hsv => by
    simp [stringifyVal] at hsv
    subst hsv
    intro g rest _ hrest
    obtain ⟨c0, ds, hnc⟩ : ∃ c0 ds, natToChars n = c0 :: ds := by
      cases hx : natToChars n with
      | nil => exact absurd hx (natToChars_ne_nil n)
      | cons a b => exact ⟨a, b, rfl⟩
    have hdig := natToChars_charfacts n
    have hc0 : isDigitC c0 = true :=
      (hdig c0 (hnc ▸ List.mem_cons_self c0 ds)).2.2.2.2
    have hc0q : ¬c0 = qC := (hdig c0 (hnc ▸ List.mem_cons_self c0 ds)).1
    have hc0l : ¬c0 = lbC := by
      obtain ⟨d, hd9, rfl⟩ := natToChars_all_digits n c0 (hnc ▸ List.mem_cons_self c0 ds)
      exact (digitChar_facts d hd9).2.2.2.2.2.2.1
    rw [hnc, show (c0 :: ds) ++ rest = c0 :: (ds ++ rest) from rfl, parseVal_cons,
      if_neg hc0q, if_neg hc0l, if_pos hc0]
    have ht : takeDigits (c0 :: (ds ++ rest)) = (c0 :: ds, rest) :=
      takeDigits_append (c0 :: ds) rest
        (fun c hc => (hdig c (hnc ▸ hc)).2.2.2.2) hrest
    rw [ht, show c0 :: ds = natToChars n from hnc.symm, digitsToNat_natToChars]
    rfl
  | vStr s, hcl, sv, hsv => by
    simp [cleanV] at hcl
    simp [stringifyVal] at hsv
    rw [escChars_clean s.data hcl.1] at hsv
    subst hsv
    intro g rest _ _
    rw [show (qC :: (s.data ++ [qC])) ++ rest = qC :: (s.data ++ (qC :: rest)) by simp]
    rw [parseVal_cons, if_pos rfl]
    rw [parseStrChars_clean s.data rest (cleanChars_not_memQ _ hcl.1)
      (cleanChars_not_memB _ hcl.1)]
    rfl
  | vDate t, _, sv, hsv => by
    simp [stringifyVal] at hsv
    subst hsv
    intro g rest _ _
    obtain ⟨df, _⟩ := dateChars_facts t
    rw [show (qC :: (dateChars t ++ [qC])) ++ rest = qC :: (dateChars t ++ (qC :: rest))
      by simp]
    rw [parseVal_cons, if_pos rfl]
    rw [parseStrChars_clean (dateChars t) rest (fun hm => (df qC hm).1 rfl)
      (fun hm => (df bsC hm).2.1 rfl)]
    rfl
  | vObj fs, hcl, sv, hsv => by
    simp [cleanV] at hcl
    simp [stringifyVal] at hsv
    subst hsv
    intro g rest hd _
    rw [show (lbC :: (joinComma (stringifyEntries fs) ++ [rbC])) ++ rest
      = lbC :: (joinComma (stringifyEntries fs) ++ ([rbC] ++ rest)) by simp]
    rw [parseVal_cons, if_neg (show ¬(lbC = qC) by decide), if_pos rfl]
    cases hes : stringifyEntries fs with
    | nil =>
      have hnf : normF fs = [] := normF_nil_of_entries_nil fs hes
      have hnv : normV (vObj fs) = vObj [] := by
        show vObj (normF fs) = vObj []
        rw [hnf]
      rw [hnv]
      rfl
    | cons e es =>
      have hent := noPat_entries fs hcl
      have he1 : e.head? = some qC := (hent e (hes ▸ List.mem_cons_self e es)).2.1
      obtain ⟨e0, etail, hee⟩ : ∃ e0 et, e = e0 :: et := by
        cases e with
        | nil => simp at he1
        | cons a b => exact ⟨a, b, rfl⟩
      have he0 : e0 = qC := by
        rw [hee] at he1
        simp at he1
        exact he1
      have hjoin_head : (joinComma (e :: es) ++ ([rbC] ++ rest)).head?
          = some qC := by
        cases es with
        | nil =>
          rw [show joinComma [e] = e from rfl, hee]
          simp [he0]
        | cons e2 es2 =>
          rw [joinComma_cons₂, hee]
          simp [he0]
      rw [hjoin_head]
      show (if qC = rbC then
          some (vObj [], (joinComma (e :: es) ++ ([rbC] ++ rest)).tail)
        else (parseMembers g [] (joinComma (e :: es) ++ ([rbC] ++ rest))).map
          (fun p => (vObj p.1, p.2))) = some (normV (vObj fs), rest)
      rw [if_neg (show ¬(qC = rbC) by decide)]
      have hdf : depthF (normF fs) ≤ g := by
        have hx : depthV (normV (vObj fs)) = depthF (normF fs) + 1 := rfl
        omega
      have hrf := roundtripF fs hcl [] g rest
        (by rw [hes]; exact List.cons_ne_nil _ _) hdf
        (fun k' hk' => by simp [hasF] at hk')
      rw [hes] at hrf
      rw [hrf]
      rfl

/-- Round trip for the members of a serialized object: `parseMembers`
extends the accumulator with exactly the normalized fields. -/
theorem roundtripF : (fs : List (String × Value)) → cleanF fs = true →
    ∀ (acc : JsObj) (g : Nat) (rest : List Char),
    stringifyEntries fs ≠ [] →
    depthF (normF fs) ≤ g →
    (∀ k', hasF acc k' = true → hasF fs k' = false) →
    parseMembers g acc (joinComma (stringifyEntries fs) ++ ([rbC] ++ rest))
      = some (acc ++ normF fs, rest)
  | [], _, acc, g, rest, hne, _, _ => absurd rfl hne
  | (k, v) :: rest', hcl, acc, g, rest, hne, hdf, hfresh => by
    rw [show cleanF ((k, v) :: rest') = (cleanChars k.data && noDollarHead k.data
      && cleanV v && !hasF rest' k && cleanF rest') from rfl] at hcl
    simp only [Bool.and_eq_true] at hcl
    obtain ⟨⟨⟨⟨hk1, hk2⟩, hv⟩, hnf⟩, hrest'⟩ := hcl
    simp only [Bool.not_eq_true'] at hnf
    cases hv0 : stringifyVal v with
    | none =>
      have hvu := stringifyVal_eq_none v hv0
      subst hvu
      have hee : stringifyEntries ((k, vUndef) :: rest') = stringifyEntries rest' := rfl
      have hnn : normF ((k, vUndef) :: rest') = normF rest' := rfl
      rw [hee, hnn]
      rw [hee] at hne
      rw [hnn] at hdf
      have hfresh' : ∀ k', hasF acc k' = true → hasF rest' k' = false := by
        intro k' hk'
        have hx := hfresh k' hk'
        simp [hasF] at hx
        exact hx.2
      exact roundtripF rest' hrest' acc g rest hne hdf hfresh'
    | some sv =>
      have hvne : v ≠ vUndef := fun he => by
        subst he
        simp [stringifyVal] at hv0
      have hent : stringifyEntries ((k, v) :: rest')
          = (qC :: (escChars k.data ++ [qC, colC] ++ sv)) :: stringifyEntries rest' := by
        simp [stringifyEntries, hv0]
      have hnorm : normF ((k, v) :: rest') = (k, normV v) :: normF rest' := by
        cases v <;> first | exact absurd rfl hvne | rfl
      have hdepth : max (depthV (normV v)) (depthF (normF rest')) + 1 ≤ g := by
        rw [hnorm] at hdf
        exact hdf
      have hdvpos : 1 ≤ depthV (normV v) := depthV_pos _
      obtain ⟨g', rfl⟩ : ∃ g', g = g' + 1 := ⟨g - 1, by omega⟩
      have hdv : depthV (normV v) ≤ g' := by omega
      obtain ⟨g'', hg''⟩ : ∃ g'', g' = g'' + 1 := ⟨g' - 1, by omega⟩
      have hacck : hasF acc k = false := by
        cases hk : hasF acc k with
        | false => rfl
        | true =>
          have hx := hfresh k hk
          simp [hasF] at hx
      have hvrt := roundtripV v hv sv hv0
      rw [hent, escChars_clean k.data hk1]
      cases hes' : stringifyEntries rest' with
      | nil =>
        have hnr : normF rest' = [] := normF_nil_of_entries_nil rest' hes'
        rw [show joinComma [qC :: (k.data ++ [qC, colC] ++ sv)]
          = qC :: (k.data ++ [qC, colC] ++ sv) from rfl]
        rw [show (qC :: (k.data ++ [qC, colC] ++ sv)) ++ ([rbC] ++ rest)
          = qC :: (k.data ++ (qC :: (colC :: (sv ++ (rbC :: rest))))) by simp]
        rw [parseMembers_cons, if_pos rfl]
        rw [parseStrChars_clean k.data (colC :: (sv ++ (rbC :: rest)))
          (cleanChars_not_memQ _ hk1) (cleanChars_not_memB _ hk1)]
        show (if colC = colC then
            match parseVal g' (sv ++ (rbC :: rest)) with
            | none => none
            | some (v', r3) =>
              match r3 with
              | [] => none
              | c3 :: r4 =>
                if c3 = comC then parseMembers g' (setF acc (String.mk k.data) v') r4
                else if c3 = rbC then some (setF acc (String.mk k.data) v', r4)
                else none
          else none) = some (acc ++ normF ((k, v) :: rest'), rest)
        rw [if_pos rfl, hg'']
        rw [hvrt g'' (rbC :: rest) (by omega)
          (fun c hc => by simp at hc; subst hc; decide)]
        show some (setF acc (String.mk k.data) (normV v), rest)
          = some (acc ++ normF ((k, v) :: rest'), rest)
        rw [show String.mk k.data = k from rfl, setF_append acc k (normV v) hacck,
          hnorm, hnr]
      | cons e2 es2 =>
        rw [joinComma_cons₂]
        rw [show ((qC :: (k.data ++ [qC, colC] ++ sv))
            ++ comC :: joinComma (e2 :: es2)) ++ ([rbC] ++ rest)
          = qC :: (k.data ++ (qC :: (colC :: (sv
              ++ (comC :: (joinComma (e2 :: es2) ++ ([rbC] ++ rest))))))) by simp]
        rw [parseMembers_cons, if_pos rfl]
        rw [parseStrChars_clean k.data
          (colC :: (sv ++ (comC :: (joinComma (e2 :: es2) ++ ([rbC] ++ rest)))))
          (cleanChars_not_memQ _ hk1) (cleanChars_not_memB _ hk1)]
        show (if colC = colC then
            match parseVal g' (sv ++ (comC :: (joinComma (e2 :: es2) ++ ([rbC] ++ rest)))) with
            | none => none
            | some (v', r3) =>
              match r3 with
              | [] => none
              | c3 :: r4 =>
                if c3 = comC then parseMembers g' (setF acc (String.mk k.data) v') r4
                else if c3 = rbC then some (setF acc (String.mk k.data) v', r4)
                else none
          else none) = some (acc ++ normF ((k, v) :: rest'), rest)
        rw [if_pos rfl, hg'']
        rw [hvrt g'' (comC :: (joinComma (e2 :: es2) ++ ([rbC] ++ rest))) (by omega)
          (fun c hc => by simp at hc; subst hc; decide)]
        show parseMembers (g'' + 1) (setF acc (String.mk k.data) (normV v))
            (joinComma (e2 :: es2) ++ ([rbC] ++ rest))
          = some (acc ++ normF ((k, v) :: rest'), rest)
        rw [show String.mk k.data = k from rfl, setF_append acc k (normV v) hacck]
        have hfresh2 : ∀ k', hasF (acc ++ [(k, normV v)]) k' = true
            → hasF rest' k' = false := by
          intro k' hk'
          rw [hasF_append] at hk'
          rcases Bool.or_eq_true_iff.mp hk' with hx | hx
          · have hy := hfresh k' hx
            simp [hasF] at hy
            exact hy.2
          · simp [hasF] at hx
            subst hx
            exact hnf
        have hdf2 : depthF (normF rest') ≤ g'' + 1 := by omega
        have hrec := roundtripF rest' hrest' (acc ++ [(k, normV v)]) (g'' + 1) rest
          (by rw [hes']; exact List.cons_ne_nil _ _) hdf2 hfresh2
        rw [hes'] at hrec
        rw [hrec, hnorm]
        simp

end

theorem parseJson_stringify (v : Value) (hcl : cleanV v = true) (sv : List Char)
    (hsv : stringifyVal v = some sv) : parseJson sv = some (normV v) := by
  have hdep := depth_le_stringify v sv hsv
  have hx := roundtripV v hcl sv hsv sv.length [] (Nat.le_succ_of_le hdep)
    (fun c hc => by simp at hc)
  rw [List.append_nil] at hx
  simp only [parseJson, hx]

theorem sanitize_clean (v : Value) (hcl : cleanV v = true) (hne : v ≠ vUndef) :
    sanitizeObj v = Except.ok (normV v) := by
  obtain ⟨sv, hsv⟩ := stringifyVal_of_ne_undef v hne
  obtain ⟨hqd, _, hap⟩ := noPat_stringify v hcl sv hsv
  have hr1 : replaceFirst sv patQD [qC] = sv := replaceFirst_of_noPat sv patQD [qC] hqd
  have hr2 : replaceFirst sv patAD [apC] = sv :=
    replaceFirst_of_noPat sv patAD [apC] (hasPat_of_not_mem apC dolC sv hap)
  have hpj := parseJson_stringify v hcl sv hsv
  simp only [sanitizeObj, hsv, hr1, hr2, hpj]

theorem cleanF_append_split (a b : List (String × Value)) (h : cleanF (a ++ b) = true) :
    cleanF a = true ∧ cleanF b = true := by
  induction a with
  | nil => exact ⟨rfl, h⟩
  | cons p rest ih =>
    obtain ⟨k, v⟩ := p
    rw [show ((k, v) :: rest) ++ b = (k, v) :: (rest ++ b) from rfl] at h
    rw [show cleanF ((k, v) :: (rest ++ b)) = (cleanChars k.data && noDollarHead k.data
      && cleanV v && !hasF (rest ++ b) k && cleanF (rest ++ b)) from rfl] at h
    simp only [Bool.and_eq_true] at h
    obtain ⟨⟨⟨⟨hk1, hk2⟩, hv⟩, hnf⟩, hrest⟩ := h
    obtain ⟨ha, hb⟩ := ih hrest
    refine ⟨?_, hb⟩
    rw [show cleanF ((k, v) :: rest) = (cleanChars k.data && noDollarHead k.data
      && cleanV v && !hasF rest k && cleanF rest) from rfl]
    simp only [Bool.and_eq_true]
    have hnr : hasF rest k = false := by
      simp only [Bool.not_eq_true'] at hnf
      rw [hasF_append] at hnf
      cases hx : hasF rest k with
      | false => rfl
      | true => rw [hx] at hnf; simp at hnf
    exact ⟨⟨⟨⟨hk1, hk2⟩, hv⟩, by simp [hnr]⟩, ha⟩

theorem stringifyEntries_append (a b : List (String × Value)) :
    stringifyEntries (a ++ b) = stringifyEntries a ++ stringifyEntries b := by
  induction a with
  | nil => rfl
  | cons p rest ih =>
    obtain ⟨k, v⟩ := p
    show stringifyEntries ((k, v) :: (rest ++ b))
      = stringifyEntries ((k, v) :: rest) ++ stringifyEntries b
    cases hv : stringifyVal v with
    | none => simp [stringifyEntries, hv, ih]
    | some sv => simp [stringifyEntries, hv, ih]

theorem joinComma_cons_ne (a : List Char) (L : List (List Char)) (h : L ≠ []) :
    joinComma (a :: L) = a ++ comC :: joinComma L := by
  cases L with
  | nil => exact absurd rfl h
  | cons b r => rfl

theorem joinComma_append_init (es1 es2 : List (List Char)) (e : List Char) :
    joinComma (es1 ++ e :: es2) = joinInit es1 ++ joinComma (e :: es2) := by
  induction es1 with
  | nil => rfl
  | cons a r ih =>
    rw [show (a :: r) ++ e :: es2 = a :: (r ++ e :: es2) from rfl,
      joinComma_cons_ne a _ (by simp), ih,
      show joinInit (a :: r) = a ++ comC :: joinInit r by simp [joinInit]]
    simp

theorem noPat_joinInit_q (es : List (List Char))
    (h : ∀ e ∈ es, hasPat [qC, dolC] e = false ∧ e.head? = some qC) :
    hasPat [qC, dolC] (joinInit es ++ [qC]) = false := by
  induction es with
  | nil => decide
  | cons e rest ih =>
    obtain ⟨h1, _⟩ := h e (List.mem_cons_self e rest)
    have hrest := ih (fun x hx => h x (List.mem_cons_of_mem e hx))
    rw [show joinInit (e :: rest) ++ [qC]
      = e ++ (comC :: (joinInit rest ++ [qC])) by simp [joinInit]]
    refine hasPat_glue _ _ _ _ h1 ?_ ?_
    · show (List.isPrefixOf [qC, dolC] (comC :: (joinInit rest ++ [qC]))
        || hasPat [qC, dolC] (joinInit rest ++ [qC])) = false
      rw [hrest, Bool.or_false, isPrefixOf_head_ne _ _ _ _ (by decide)]
    · intro c hc
      simp at hc
      subst hc
      decide

theorem sanitize_one_dollar (pre post : List (String × Value)) (kt : List Char) (v : Value)
    (hclean : cleanF (pre ++ (String.mk kt, v) :: post) = true)
    (hv : v ≠ vUndef) :
    sanitizeObj (vObj (pre ++ (String.mk (dolC :: kt), v) :: post))
      = Except.ok (normV (vObj (pre ++ (String.mk kt, v) :: post))) := by
  obtain ⟨hpre, hmid⟩ := cleanF_append_split pre _ hclean
  rw [show cleanF ((String.mk kt, v) :: post) = (cleanChars (String.mk kt).data
    && noDollarHead (String.mk kt).data && cleanV v && !hasF post (String.mk kt)
    && cleanF post) from rfl] at hmid
  simp only [Bool.and_eq_true] at hmid
  obtain ⟨⟨⟨⟨hk1, hk2⟩, hvc⟩, _⟩, hpost⟩ := hmid
  have hk1' : cleanChars kt = true := hk1
  obtain ⟨sv, hsv⟩ := stringifyVal_of_ne_undef v hv
  have hkD : cleanChars (dolC :: kt) = true := by
    rw [show cleanChars (dolC :: kt)
      = ((!(decide (dolC = qC)) && !(decide (dolC = bsC)) && !(decide (dolC = apC)))
        && cleanChars kt) from rfl, hk1']
    decide
  have hentD : stringifyEntries (pre ++ (String.mk (dolC :: kt), v) :: post)
      = stringifyEntries pre
        ++ (qC :: ((dolC :: kt) ++ [qC, colC] ++ sv)) :: stringifyEntries post := by
    rw [stringifyEntries_append]
    congr 1
    simp [stringifyEntries, hsv, escChars_clean (dolC :: kt) hkD]
  have hentU : stringifyEntries (pre ++ (String.mk kt, v) :: post)
      = stringifyEntries pre
        ++ (qC :: (kt ++ [qC, colC] ++ sv)) :: stringifyEntries post := by
    rw [stringifyEntries_append]
    congr 1
    simp [stringifyEntries, hsv, escChars_clean kt hk1']
  obtain ⟨T, hT⟩ : ∃ T, ∀ e : List Char, joinComma (e :: stringifyEntries post)
      = e ++ T := by
    cases hp : stringifyEntries post with
    | nil => exact ⟨[], fun e => by simp [joinComma]⟩
    | cons e2 es2 => exact ⟨comC :: joinComma (e2 :: es2), fun e => rfl⟩
  have hSD : stringifyVal (vObj (pre ++ (String.mk (dolC :: kt), v) :: post))
      = some (lbC :: ((joinInit (stringifyEntries pre)
          ++ ((qC :: ((dolC :: kt) ++ [qC, colC] ++ sv)) ++ T)) ++ [rbC])) := by
    show some (lbC :: (joinComma (stringifyEntries
      (pre ++ (String.mk (dolC :: kt), v) :: post)) ++ [rbC])) = _
    rw [hentD, joinComma_append_init, hT]
  have hSU : stringifyVal (vObj (pre ++ (String.mk kt, v) :: post))
      = some (lbC :: ((joinInit (stringifyEntries pre)
          ++ ((qC :: (kt ++ [qC, colC] ++ sv)) ++ T)) ++ [rbC])) := by
    show some (lbC :: (joinComma (stringifyEntries
      (pre ++ (String.mk kt, v) :: post)) ++ [rbC])) = _
    rw [hentU, joinComma_append_init, hT]
  have hclV : cleanV (vObj (pre ++ (String.mk kt, v) :: post)) = true := hclean
  have hentPre := noPat_entries pre hpre
  have hA : hasPat [qC, dolC] ((lbC :: joinInit (stringifyEntries pre)) ++ [qC])
      = false := by
    show (List.isPrefixOf [qC, dolC] (lbC :: (joinInit (stringifyEntries pre) ++ [qC]))
      || hasPat [qC, dolC] (joinInit (stringifyEntries pre) ++ [qC])) = false
    rw [noPat_joinInit_q _ (fun e he => ⟨(hentPre e he).1, (hentPre e he).2.1⟩),
      Bool.or_false, isPrefixOf_head_ne _ _ _ _ (by decide)]
  have hshape : lbC :: ((joinInit (stringifyEntries pre)
        ++ ((qC :: ((dolC :: kt) ++ [qC, colC] ++ sv)) ++ T)) ++ [rbC])
      = ((lbC :: joinInit (stringifyEntries pre)) ++ [qC, dolC])
        ++ ((kt ++ [qC, colC] ++ sv) ++ (T ++ [rbC])) := by
    simp
  have hrepl : replaceFirst (lbC :: ((joinInit (stringifyEntries pre)
        ++ ((qC :: ((dolC :: kt) ++ [qC, colC] ++ sv)) ++ T)) ++ [rbC])) patQD [qC]
      = lbC :: ((joinInit (stringifyEntries pre)
        ++ ((qC :: (kt ++ [qC, colC] ++ sv)) ++ T)) ++ [rbC]) := by
    rw [hshape, show patQD = [qC, dolC] from rfl,
      replaceFirst_split qC dolC (by decide) _ _ _ hA]
    simp
  have hAP : hasPat patAD (lbC :: ((joinInit (stringifyEntries pre)
      ++ ((qC :: (kt ++ [qC, colC] ++ sv)) ++ T)) ++ [rbC])) = false := by
    have hnp := noPat_stringify _ hclV _ hSU
    exact hasPat_of_not_mem apC dolC _ hnp.2.2
  have hr2 := replaceFirst_of_noPat _ patAD [apC] hAP
  have hpj := parseJson_stringify _ hclV _ hSU
  have hfull : replaceFirst (replaceFirst (lbC :: ((joinInit (stringifyEntries pre)
      ++ ((qC :: ((dolC :: kt) ++ [qC, colC] ++ sv)) ++ T)) ++ [rbC])) patQD [qC])
        patAD [apC]
      = lbC :: ((joinInit (stringifyEntries pre)
        ++ ((qC :: (kt ++ [qC, colC] ++ sv)) ++ T)) ++ [rbC]) := by
    rw [hrepl, hr2]
  simp only [sanitizeObj, hSD, hfull, hpj]

/-- C8 counterexample: `sanitizeObj` strips only the first `$`-prefixed
key per pass, so on the flat mapping with keys `$a` and `$b` a second
application changes the result again - the claimed idempotence for
mappings whose `$`-keys are all at top level fails already with two
`$`-keys and no nesting. -/
theorem c8_counterexample :
    sanitizeObj (vObj [(String.mk [dolC, 'a'], vNum 1), (String.mk [dolC, 'b'], vNum 2)])
      = Except.ok (vObj [("a", vNum 1), (String.mk [dolC, 'b'], vNum 2)])
    ∧ sanitizeObj (vObj [("a", vNum 1), (String.mk [dolC, 'b'], vNum 2)])
      = Except.ok (vObj [("a", vNum 1), ("b", vNum 2)])
    ∧ vObj [("a", vNum 1), (String.mk [dolC, 'b'], vNum 2)]
      ≠ vObj [("a", vNum 1), ("b", vNum 2)] := by
  refine ⟨by rfl, by rfl, ?_⟩
  intro h
  simp only [Value.vObj.injEq, List.cons.injEq, Prod.mk.injEq] at h
  exact absurd h.2.1.1 (by decide)

/-- C8 (amended): sanitization is a fixed point after one pass only when
at most one key is `$`-prefixed: (1) for a clean value with no
`$`-prefixed key anywhere, `sanitizeObj` returns the JSON normalization
and is idempotent on it; (2) for an object with exactly one top-level
`$`-prefixed key (the rest clean), one pass strips that `$` and a second
pass returns the same result. -/
theorem c8_sanitize_idempotent :
    (∀ v : Value, cleanV v = true → v ≠ vUndef →
      sanitizeObj v = Except.ok (normV v)
      ∧ sanitizeObj (normV v) = Except.ok (normV v))
    ∧ (∀ (pre post : List (String × Value)) (kt : List Char) (v : Value),
      cleanF (pre ++ (String.mk kt, v) :: post) = true → v ≠ vUndef →
      sanitizeObj (vObj (pre ++ (String.mk (dolC :: kt), v) :: post))
        = Except.ok (normV (vObj (pre ++ (String.mk kt, v) :: post)))
      ∧ sanitizeObj (normV (vObj (pre ++ (String.mk kt, v) :: post)))
        = Except.ok (normV (vObj (pre ++ (String.mk kt, v) :: post)))) := by
  constructor
  · intro v hcl hne
    refine ⟨sanitize_clean v hcl hne, ?_⟩
    have h2 := sanitize_clean (normV v) (cleanV_normV v hcl) (normV_ne_undef v hne)
    rw [normV_idem v] at h2
    exact h2
  · intro pre post kt v hclean hv
    refine ⟨sanitize_one_dollar pre post kt v hclean hv, ?_⟩
    have hclV : cleanV (vObj (pre ++ (String.mk kt, v) :: post)) = true := hclean
    have h2 := sanitize_clean (normV (vObj (pre ++ (String.mk kt, v) :: post)))
      (cleanV_normV _ hclV) (normV_ne_undef _ (fun h => Value.noConfusion h))
    rw [normV_idem] at h2
    exact h2

/-- Witness for C8: the amended theorem applied to the clean mapping
`\x7ba: 1\x7d` and to the one-`$`-key mapping `\x7b$b: 2\x7d`. -/
theorem c8_sanitize_idempotent_witness :
    sanitizeObj (vObj [("a", vNum 1)]) = Except.ok (vObj [("a", vNum 1)])
    ∧ sanitizeObj (vObj [(String.mk [dolC, 'b'], vNum 2)])
        = Except.ok (vObj [(String.mk ['b'], vNum 2)]) :=
  ⟨(c8_sanitize_idempotent.1 (vObj [("a", vNum 1)]) (by decide)
      (fun h => Value.noConfusion h)).1,
   (c8_sanitize_idempotent.2 [] [] ['b'] (vNum 2) (by decide)
      (fun h => Value.noConfusion h)).1⟩
